import Mathlib

/-!
Verification development for the structured-buffer layout engine
(`WebGPUStruct`): a layout compiler that walks a declarative record
specification and produces leaf field descriptors with absolute byte
offsets, sizes and alignments, plus typed get/set accessors over a
backing buffer of 32-bit words.

The engine's arithmetic is JavaScript `number` arithmetic.  All values
that actually occur stay exact integers far below 2^53, except that a
zero alignment (from an empty nested specification) makes `x % 0`
produce `NaN`, and `Math.max()` over an empty list produces
`-Infinity`.  We therefore model the numbers as exact integers extended
with `NaN` and the two infinities, with the IEEE propagation rules for
the operations the engine uses.
-/

set_option autoImplicit false

namespace WGS

/-- A JavaScript number as used by the layout engine: an exact integer,
`NaN`, or an infinity.  (All finite values produced by the engine are
integers; float rounding of the layout arithmetic is exact at these
magnitudes.) -/
inductive JSNum where
  | nan : JSNum
  | inf : JSNum
  | ninf : JSNum
  | val : Int → JSNum
deriving DecidableEq, Repr

namespace JSNum

/-- JavaScript `+` on our number domain (IEEE addition). -/
def add : JSNum → JSNum → JSNum
  | nan, _ => nan
  | _, nan => nan
  | inf, ninf => nan
  | ninf, inf => nan
  | inf, _ => inf
  | _, inf => inf
  | ninf, _ => ninf
  | _, ninf => ninf
  | val a, val b => val (a + b)

/-- IEEE negation. -/
def neg : JSNum → JSNum
  | nan => nan
  | inf => ninf
  | ninf => inf
  | val a => val (-a)

/-- JavaScript `-` (IEEE subtraction). -/
def sub (a b : JSNum) : JSNum := add a (neg b)

/-- JavaScript `*` (IEEE multiplication). -/
def mul : JSNum → JSNum → JSNum
  | nan, _ => nan
  | _, nan => nan
  | inf, inf => inf
  | inf, ninf => ninf
  | ninf, inf => ninf
  | ninf, ninf => inf
  | inf, val b => if b = 0 then nan else if 0 < b then inf else ninf
  | val a, inf => if a = 0 then nan else if 0 < a then inf else ninf
  | ninf, val b => if b = 0 then nan else if 0 < b then ninf else inf
  | val a, ninf => if a = 0 then nan else if 0 < a then ninf else inf
  | val a, val b => val (a * b)

/-- JavaScript `%` (IEEE remainder with the sign of the dividend;
on integers this is truncating remainder).  `x % 0` is `NaN`,
an infinite dividend gives `NaN`, a finite dividend with an infinite
divisor is returned unchanged. -/
def rem : JSNum → JSNum → JSNum
  | nan, _ => nan
  | _, nan => nan
  | inf, _ => nan
  | ninf, _ => nan
  | val a, inf => val a
  | val a, ninf => val a
  | val a, val b => if b = 0 then nan else val (Int.tmod a b)

/-- JavaScript `Math.max` on two arguments (`NaN` propagates). -/
def jmax : JSNum → JSNum → JSNum
  | nan, _ => nan
  | _, nan => nan
  | inf, _ => inf
  | _, inf => inf
  | ninf, b => b
  | a, ninf => a
  | val a, val b => val (max a b)

/-- JavaScript `Math.max(...list)`: the fold of `Math.max` starting from
`-Infinity` (so the empty list yields `-Infinity`, and any `NaN`
poisons the result). -/
def maxList (l : List JSNum) : JSNum := l.foldl jmax ninf

/-- JavaScript `Math.ceil (a / b)` on our domain.  Division of the
integers the engine produces is exact, so on finite nonzero divisors
this is exact ceiling division. -/
def divCeil : JSNum → JSNum → JSNum
  | nan, _ => nan
  | _, nan => nan
  | inf, inf => nan
  | inf, ninf => nan
  | ninf, inf => nan
  | ninf, ninf => nan
  | inf, val b => if 0 ≤ b then inf else ninf
  | ninf, val b => if 0 ≤ b then ninf else inf
  | val _, inf => val 0
  | val _, ninf => val 0
  | val a, val b =>
    if b = 0 then (if a = 0 then nan else if 0 < a then inf else ninf)
    else val (-((-a).fdiv b))

@[simp] theorem add_val_val (a b : Int) : add (val a) (val b) = val (a + b) := rfl
@[simp] theorem add_nan_left (x : JSNum) : add nan x = nan := by cases x <;> rfl
@[simp] theorem add_nan_right (x : JSNum) : add x nan = nan := by cases x <;> rfl
@[simp] theorem sub_val_val (a b : Int) : sub (val a) (val b) = val (a - b) := by
  simp [sub, neg, add, Int.sub_eq_add_neg]
@[simp] theorem mul_val_val (a b : Int) : mul (val a) (val b) = val (a * b) := rfl
@[simp] theorem jmax_val_val (a b : Int) : jmax (val a) (val b) = val (max a b) := rfl
@[simp] theorem rem_nan_left (x : JSNum) : rem nan x = nan := by cases x <;> rfl
@[simp] theorem rem_nan_right (x : JSNum) : rem x nan = nan := by cases x <;> rfl

theorem rem_val_val (a b : Int) :
    rem (val a) (val b) = if b = 0 then nan else val (Int.tmod a b) := rfl

theorem divCeil_val_val (a b : Int) (hb : b ≠ 0) :
    divCeil (val a) (val b) = val (-((-a).fdiv b)) := by
  simp [divCeil, hb]

end JSNum

open JSNum

/-- The JS expression `(a - (x % a)) % a` used throughout the engine to
compute alignment padding, specialized to finite values.  (`Int.tmod`
is the truncating remainder, matching JS `%` on integers.) -/
def padTo (x a : Int) : Int := Int.tmod (a - Int.tmod x a) a

/-- `alignUp x a = x + padTo x a`; for `0 ≤ x` and `0 < a` this is the
least multiple of `a` that is `≥ x`. -/
def alignUp (x a : Int) : Int := x + padTo x a

/-- The padding expression on `JSNum`s, as written in the source:
`(align - (offset % align)) % align`. -/
def jsPad (offset align : JSNum) : JSNum := rem (sub align (rem offset align)) align

theorem jsPad_val_val (x a : Int) (ha : a ≠ 0) :
    jsPad (val x) (val a) = val (padTo x a) := by
  simp [jsPad, rem_val_val, ha, padTo]

@[simp] theorem jsPad_val_zero (x : Int) : jsPad (val x) (val 0) = nan := by
  simp [jsPad, rem_val_val, sub, add, neg, rem]

@[simp] theorem jsPad_nan_val (a : JSNum) : jsPad nan a = nan := by
  cases a <;> simp [jsPad, rem, sub, add, neg]

theorem tmodNonneg (x a : Int) (hx : 0 ≤ x) (ha : 0 ≤ a) : Int.tmod x a = x % a :=
  Int.tmod_eq_emod hx ha

theorem padTo_eq (x a : Int) (hx : 0 ≤ x) (ha : 0 < a) :
    padTo x a = (a - x % a) % a := by
  unfold padTo
  rw [tmodNonneg x a hx (le_of_lt ha)]
  have h2 : x % a < a := Int.emod_lt_of_pos x ha
  have hsub : 0 ≤ a - x % a := by omega
  rw [tmodNonneg _ a hsub (le_of_lt ha)]

theorem padTo_nonneg_lt (x a : Int) (hx : 0 ≤ x) (ha : 0 < a) :
    0 ≤ padTo x a ∧ padTo x a < a := by
  rw [padTo_eq x a hx ha]
  exact ⟨Int.emod_nonneg _ (by omega), Int.emod_lt_of_pos _ ha⟩

theorem alignUp_dvd (x a : Int) (hx : 0 ≤ x) (ha : 0 < a) : a ∣ alignUp x a := by
  have h1 : 0 ≤ x % a := Int.emod_nonneg x (by omega)
  have h2 : x % a < a := Int.emod_lt_of_pos x ha
  unfold alignUp
  rw [padTo_eq x a hx ha]
  rcases eq_or_ne (x % a) 0 with h0 | h0
  · rw [h0, sub_zero, Int.emod_self, add_zero]
    exact Int.dvd_of_emod_eq_zero h0
  · have hlt : a - x % a < a := by omega
    have hge : 0 ≤ a - x % a := by omega
    rw [Int.emod_eq_of_lt hge hlt]
    have hdiv : a * (x / a) + x % a = x := Int.ediv_add_emod x a
    have : x + (a - x % a) = a * (x / a) + a := by omega
    rw [this]
    exact (dvd_mul_right a (x / a)).add (dvd_refl a)

theorem le_alignUp (x a : Int) (hx : 0 ≤ x) (ha : 0 < a) : x ≤ alignUp x a := by
  have := padTo_nonneg_lt x a hx ha
  unfold alignUp; omega

theorem alignUp_lt (x a : Int) (hx : 0 ≤ x) (ha : 0 < a) : alignUp x a < x + a := by
  have := padTo_nonneg_lt x a hx ha
  unfold alignUp; omega

theorem alignUp_eq_self (x a : Int) (hx : 0 ≤ x) (ha : 0 < a) (hdvd : a ∣ x) :
    alignUp x a = x := by
  have hx0 : x % a = 0 := Int.emod_eq_zero_of_dvd hdvd
  unfold alignUp
  rw [padTo_eq x a hx ha, hx0, sub_zero, Int.emod_self, add_zero]

theorem dvd_padTo (x a d : Int) (hx : 0 ≤ x) (ha : 0 < a) (hdx : d ∣ x) (hda : d ∣ a) :
    d ∣ padTo x a := by
  have h := alignUp_dvd x a hx ha
  have : d ∣ alignUp x a := dvd_trans hda h
  have : d ∣ alignUp x a - x := dvd_sub this hdx
  simpa [alignUp] using this

/-! ### The type table and the layout data model -/

/-- The built-in table `WebGPUStruct.TYPES`:
type tag ↦ `[byteSize, alignment, componentCount]`. -/
def typeTable : List (String × Int × Int × Nat) :=
  [("f32", 4, 4, 1), ("i32", 4, 4, 1), ("u32", 4, 4, 1),
   ("vec2f", 8, 8, 2), ("vec2i", 8, 8, 2), ("vec2u", 8, 8, 2),
   ("vec3f", 12, 16, 3), ("vec3i", 12, 16, 3), ("vec3u", 12, 16, 3),
   ("vec4f", 16, 16, 4), ("vec4i", 16, 16, 4), ("vec4u", 16, 16, 4),
   ("mat2x2f", 16, 8, 4), ("mat3x3f", 48, 16, 9), ("mat4x4f", 64, 16, 16)]

/-- `WebGPUStruct.TYPES[type]`: `none` models an absent key. -/
def TYPES (tag : String) : Option (Int × Int × Nat) := typeTable.lookup tag

/-- One field of a `StructLayout` value.  The source's type is
`string | StructLayout | [WebGPUStruct | StructLayout, number]`.
An array element is characterized by the layout it is built from and
the uniform flag of its record: an inline nested specification is
compiled with `uniformBuffer: false` (so `elemUniform = false`), and a
pre-compiled `WebGPUStruct` instance carries the layout and flag it was
constructed from (an instance exists only if that construction
returned).  `arrPrim` is the runtime-representable case of a plain
string in element position (the class documentation suggests it, the
element dispatch rejects it). -/
inductive FieldSpec where
  | prim (tag : String)
  | nested (layout : List (String × FieldSpec))
  | arr (elemLayout : List (String × FieldSpec)) (elemUniform : Bool) (len : Int)
  | arrPrim (tag : String) (len : Int)
deriving Repr

/-- The `FieldInfo` descriptor produced by layout compilation. -/
structure FieldInfo where
  name : String
  type : String
  offset : JSNum
  size : Int
  alignment : Int
  componentCount : Nat
  path : List String
  isArray : Bool := false
  arrayLength : Option Int := none
  arrayStride : Option JSNum := none
deriving DecidableEq, Repr

/-- The construction-time errors thrown by the engine
(`throw new Error(...)` sites, identified by their messages). -/
inductive StructError where
  | emptyLayout
  | unknownType (tag : String)
  | invalidArrayLength (name : String)
  | invalidElementSpec (name : String)
deriving DecidableEq, Repr

/-- The `{ fields, alignment, nextOffset }` record returned by
`_processField` and its helpers. -/
structure ProcResult where
  fields : List FieldInfo
  alignment : JSNum
  nextOffset : JSNum
deriving DecidableEq, Repr

/-- A compiled record: the ordered leaf descriptors and the final padded
size.  The path index is derived from `fields` (see `fieldLookup`). -/
structure Record where
  fields : List FieldInfo
  totalSize : JSNum
  uniformBuffer : Bool
deriving DecidableEq, Repr

/-- `_processPrimitive`: look up the type, pad the running offset to the
type's alignment, emit one descriptor. -/
def processPrimitive (name tag : String) (offset : JSNum) (path : List String) :
    Except StructError ProcResult :=
  match TYPES tag with
  | none => .error (.unknownType tag)
  | some (size, alignment, componentCount) =>
    let alignmentPadding := jsPad offset (.val alignment)
    let offset := add offset alignmentPadding
    .ok { fields := [{ name := name, type := tag, offset := offset, size := size,
                       alignment := alignment, componentCount := componentCount,
                       path := path }],
          alignment := .val alignment,
          nextOffset := add offset (.val size) }

/-- The tail of `_processNestedStruct` after its field loop: pad the
parent offset to the nested struct's own max alignment, re-base the
nested offsets, and pad the nested size to its own alignment. -/
def nestedTail (fields : List FieldInfo) (nestedOffset maxAlignment : JSNum)
    (offset : JSNum) : ProcResult :=
  let structAlignment := maxAlignment
  let alignmentPadding := jsPad offset structAlignment
  let offset1 := add offset alignmentPadding
  let baseOffset := offset1
  let adjustedFields := fields.map fun f => { f with offset := add baseOffset f.offset }
  let structSize := nestedOffset
  let sizePadding := jsPad structSize structAlignment
  let totalStructSize := add structSize sizePadding
  { fields := adjustedFields, alignment := structAlignment,
    nextOffset := add baseOffset totalStructSize }

/-- The tail of `_computeLayout` after its field loop: the struct
alignment (16-byte floor in uniform-buffer mode) and final padding. -/
def compileFinish (fields : List FieldInfo) (offset maxAlignment : JSNum)
    (uniformBuffer : Bool) : Record :=
  let structAlignment := if uniformBuffer then jmax maxAlignment (.val 16) else maxAlignment
  let finalPadding := jsPad offset structAlignment
  { fields := fields, totalSize := add offset finalPadding,
    uniformBuffer := uniformBuffer }

/-- The tail of `_processArray` after the element record is resolved:
array alignment = the max alignment among the element's fields, start
offset padded to it (not to 16), stride = `max(elementSize, 16)` rounded
up to the element alignment, and one copy of every element field per
index. -/
def arrayTail (name : String) (elementStruct : Record) (len : Int) (offset : JSNum)
    (path : List String) : ProcResult :=
  let elementSize := elementStruct.totalSize
  let elementAlignment := maxList (elementStruct.fields.map fun f => JSNum.val f.alignment)
  let arrayAlignment := elementAlignment
  let alignmentPadding := jsPad offset arrayAlignment
  let offset1 := add offset alignmentPadding
  let arrayStride0 := jmax elementSize (.val 16)
  let arrayStride := mul (divCeil arrayStride0 arrayAlignment) arrayAlignment
  let baseOffset := offset1
  let fields := (List.range len.toNat).flatMap fun i =>
    let elementOffset := add baseOffset (mul (.val (i : Int)) arrayStride)
    elementStruct.fields.map fun elementField =>
      { elementField with
          name := name ++ "." ++ toString i ++ "." ++ elementField.name,
          offset := add elementOffset elementField.offset,
          path := path ++ [toString i, elementField.name],
          isArray := true,
          arrayLength := some len,
          arrayStride := some arrayStride }
  let totalArraySize := mul arrayStride (.val len)
  { fields := fields, alignment := arrayAlignment,
    nextOffset := add baseOffset totalArraySize }

mutual

/-- `_processField`: arrays first, then nested objects, then primitive
tags (mirroring the source's dispatch order).  The element-record
construction in the array branch and the nested-struct field loop are
written through `processFields` directly so that the recursion is
structural; `processArray`, `processNestedStruct` and `compile` below
restate these branches and are proved equal to them. -/
def processField (name : String) (spec : FieldSpec) (offset : JSNum)
    (path : List String) : Except StructError ProcResult :=
  match spec with
  | .arr elemLayout elemUniform len =>
    if len ≤ 0 then .error (.invalidArrayLength name)
    else if elemLayout.isEmpty then .error .emptyLayout
    else
      (processFields elemLayout (.val 0) (.val 0) []).bind fun out =>
        .ok (arrayTail name (compileFinish out.1 out.2.1 out.2.2 elemUniform) len offset path)
  | .arrPrim _ len =>
      -- string element spec: the positivity check throws first, then the
      -- element-type dispatch throws `Invalid array element specification`
      if len ≤ 0 then .error (.invalidArrayLength name)
      else .error (.invalidElementSpec name)
  | .nested layout =>
      (processFields layout (.val 0) (.val 0) path).bind fun out =>
        .ok (nestedTail out.1 out.2.1 out.2.2 offset)
  | .prim tag => processPrimitive name tag offset path

/-- The per-field loop shared by `_computeLayout` and
`_processNestedStruct`: carries the running offset and max alignment,
concatenating descriptors in declaration order. -/
def processFields (entries : List (String × FieldSpec)) (offset maxAlignment : JSNum)
    (path : List String) :
    Except StructError (List FieldInfo × JSNum × JSNum) :=
  match entries with
  | [] => .ok ([], offset, maxAlignment)
  | (name, spec) :: rest =>
    (processField name spec offset (path ++ [name])).bind fun r =>
      (processFields rest r.nextOffset (jmax maxAlignment r.alignment) path).bind fun out =>
        .ok (r.fields ++ out.1, out.2.1, out.2.2)

end

/-- The constructor plus `_computeLayout`: reject an empty top-level
layout, process the fields, then pad the total size to the struct
alignment. -/
def compile (layout : List (String × FieldSpec)) (uniformBuffer : Bool) :
    Except StructError Record :=
  if layout.isEmpty then .error .emptyLayout
  else
    (processFields layout (.val 0) (.val 0) []).map fun r =>
      compileFinish r.1 r.2.1 r.2.2 uniformBuffer

/-- `_processNestedStruct` as a standalone function. -/
def processNestedStruct (layout : List (String × FieldSpec)) (offset : JSNum)
    (path : List String) : Except StructError ProcResult :=
  (processFields layout (.val 0) (.val 0) path).map fun r =>
    nestedTail r.1 r.2.1 r.2.2 offset

/-- `_processArray` as a standalone function: the element record is
`new WebGPUStruct(elemLayout, { uniformBuffer: elemUniform })`. -/
def processArray (name : String) (elemLayout : List (String × FieldSpec))
    (elemUniform : Bool) (len : Int) (offset : JSNum) (path : List String) :
    Except StructError ProcResult :=
  if len ≤ 0 then .error (.invalidArrayLength name)
  else
    (compile elemLayout elemUniform).map fun elementStruct =>
      arrayTail name elementStruct len offset path

theorem processField_nested_eq (name : String) (layout : List (String × FieldSpec))
    (offset : JSNum) (path : List String) :
    processField name (.nested layout) offset path =
      processNestedStruct layout offset path := by
  rw [processField, processNestedStruct]
  cases processFields layout (.val 0) (.val 0) path <;> simp [Except.map, Except.bind]

theorem processField_arr_eq (name : String) (elemLayout : List (String × FieldSpec))
    (elemUniform : Bool) (len : Int) (offset : JSNum) (path : List String) :
    processField name (.arr elemLayout elemUniform len) offset path =
      processArray name elemLayout elemUniform len offset path := by
  rw [processField, processArray, compile]
  by_cases hlen : len ≤ 0
  · simp [hlen]
  · by_cases hemp : elemLayout.isEmpty
    · simp [hlen, hemp, Except.map]
    · simp only [hlen, hemp, if_false, if_true, Bool.false_eq_true]
      cases processFields elemLayout (.val 0) (.val 0) [] <;> simp [Except.map, Except.bind]

@[simp] theorem exbind_ok {e a b : Type} (x : a) (f : a → Except e b) :
    (Except.ok x : Except e a).bind f = f x := rfl

@[simp] theorem exbind_error {e a b : Type} (err : e) (f : a → Except e b) :
    (Except.error err : Except e a).bind f = .error err := rfl

theorem processFields_nil (offset maxAlignment : JSNum) (path : List String) :
    processFields [] offset maxAlignment path = .ok ([], offset, maxAlignment) := rfl

theorem processFields_cons (nm : String) (spec : FieldSpec)
    (rest : List (String × FieldSpec)) (offset maxAlignment : JSNum)
    (path : List String) :
    processFields ((nm, spec) :: rest) offset maxAlignment path =
      (processField nm spec offset (path ++ [nm])).bind fun r =>
        (processFields rest r.nextOffset (jmax maxAlignment r.alignment) path).bind fun out =>
          Except.ok (r.fields ++ out.1, out.2.1, out.2.2) := rfl

theorem processField_prim_def (name tag : String) (offset : JSNum) (path : List String) :
    processField name (.prim tag) offset path = processPrimitive name tag offset path := rfl

theorem processField_arrPrim_def (name tag : String) (len : Int) (offset : JSNum)
    (path : List String) :
    processField name (.arrPrim tag len) offset path =
      if len ≤ 0 then .error (.invalidArrayLength name)
      else .error (.invalidElementSpec name) := rfl

theorem processField_nested_def (name : String) (layout : List (String × FieldSpec))
    (offset : JSNum) (path : List String) :
    processField name (.nested layout) offset path =
      (processFields layout (.val 0) (.val 0) path).bind fun out =>
        Except.ok (nestedTail out.1 out.2.1 out.2.2 offset) := rfl

theorem processField_arr_def (name : String) (elemLayout : List (String × FieldSpec))
    (elemUniform : Bool) (len : Int) (offset : JSNum) (path : List String) :
    processField name (.arr elemLayout elemUniform len) offset path =
      if len ≤ 0 then .error (.invalidArrayLength name)
      else if elemLayout.isEmpty then .error .emptyLayout
      else
        (processFields elemLayout (.val 0) (.val 0) []).bind fun out =>
          Except.ok
            (arrayTail name (compileFinish out.1 out.2.1 out.2.2 elemUniform)
              len offset path) := rfl

/-- Dot-joined path key, as used by the TS `fieldMap`. -/
def joinPath (p : List String) : String := String.intercalate "." p

/-- The field index: built by inserting every descriptor keyed by its
joined path, in order; `Map.set` makes the last insertion win. -/
def fieldLookup (fields : List FieldInfo) (key : String) : Option FieldInfo :=
  (fields.filter fun f => joinPath f.path == key).getLast?

example : (compile [("a", .prim "f32"), ("b", .prim "vec3f")] false).map
    (fun r => r.totalSize) = .ok (.val 32) := by rfl

example : (compile [("a", .prim "f32"), ("b", .prim "vec3f")] false).map
    (fun r => r.fields.map (fun f => f.offset)) = .ok [.val 0, .val 16] := by rfl

example : (compile [("value", .prim "f32")] true).map
    (fun r => r.totalSize) = .ok (.val 16) := by rfl

example : (compile [("data", .arr [("value", .prim "vec3f")] false 3)] false).map
    (fun r => r.fields.map (fun f => f.offset)) = .ok [.val 0, .val 16, .val 32] := by rfl

example : (compile [("a", .nested [])] false).map (fun r => r.totalSize) = .ok .nan := by rfl

/-! ### Well-formedness and the layout invariants -/

mutual

/-- Well-formedness of one field spec: a known primitive tag, a nonempty
well-formed nested layout, or an array with positive length over a
nonempty well-formed element layout.  (The empty-layout conditions
matter: the code itself only rejects an empty layout at the top level,
see the `C9` theorem.) -/
def wfField : FieldSpec → Bool
  | .prim tag => (TYPES tag).isSome
  | .nested layout => !layout.isEmpty && wfLayout layout
  | .arr elemLayout _ len => decide (0 < len) && (!elemLayout.isEmpty && wfLayout elemLayout)
  | .arrPrim _ _ => false

/-- Well-formedness of every field of a layout. -/
def wfLayout : List (String × FieldSpec) → Bool
  | [] => true
  | (_, spec) :: rest => wfField spec && wfLayout rest

end

/-- `Math.max` over the alignments of a list of field descriptors,
starting from 0.  For a compiled record this is the maximum member
alignment (each member's alignment is itself the max of its leaves). -/
def maxFieldAlignment (fields : List FieldInfo) : Int :=
  fields.foldl (fun m f => max m f.alignment) 0

/-- The arithmetic facts true of every entry of the type table. -/
abbrev typeOK (s a : Int) (c : Nat) : Prop :=
  0 < s ∧ (4:Int) ∣ s ∧ (a = 4 ∨ a = 8 ∨ a = 16) ∧ 0 < c ∧ 4 * (c:Int) ≤ s

theorem lookup_mem {l : List (String × Int × Int × Nat)} {a : String}
    {b : Int × Int × Nat} (h : l.lookup a = some b) : (a, b) ∈ l := by
  induction l with
  | nil => simp [List.lookup] at h
  | cons kv t ih =>
    obtain ⟨k, v⟩ := kv
    rw [List.lookup] at h
    split at h
    · next heq =>
        have hk : a = k := by simpa using heq
        injection h with h2
        subst hk; subst h2
        exact List.mem_cons_self _ _
    · next heq => exact List.mem_cons_of_mem _ (ih h)

theorem TYPES_facts {tag : String} {s a : Int} {c : Nat}
    (h : TYPES tag = some (s, a, c)) : typeOK s a c := by
  have hm : (tag, (s, a, c)) ∈ typeTable := lookup_mem h
  have hall : ∀ e ∈ typeTable, typeOK e.2.1 e.2.2.1 e.2.2.2 := by decide
  exact hall _ hm

theorem alignSet_pos {a : Int} (ha : a = 4 ∨ a = 8 ∨ a = 16) : 0 < a := by
  rcases ha with rfl | rfl | rfl <;> norm_num

theorem alignSet_dvd_four {a : Int} (ha : a = 4 ∨ a = 8 ∨ a = 16) : (4:Int) ∣ a := by
  rcases ha with rfl | rfl | rfl <;> decide

theorem alignSet_dvd_sixteen {a : Int} (ha : a = 4 ∨ a = 8 ∨ a = 16) : a ∣ 16 := by
  rcases ha with rfl | rfl | rfl <;> decide

theorem alignSet_dvd {a b : Int} (ha : a = 4 ∨ a = 8 ∨ a = 16)
    (hb : b = 4 ∨ b = 8 ∨ b = 16) (hle : a ≤ b) : a ∣ b := by
  rcases ha with rfl | rfl | rfl <;> rcases hb with rfl | rfl | rfl <;>
    first
      | decide
      | (exfalso; omega)

theorem foldl_max_shift (l : List Int) (a b : Int) :
    l.foldl max (max a b) = max a (l.foldl max b) := by
  induction l generalizing b with
  | nil => rfl
  | cons x t ih =>
    simp only [List.foldl_cons]
    rw [max_assoc, ih]

theorem le_foldl_max (l : List Int) (a : Int) : a ≤ l.foldl max a := by
  induction l generalizing a with
  | nil => simp
  | cons x t ih => exact le_trans (le_max_left a x) (ih (max a x))

theorem foldl_max_init (l : List Int) (a : Int) (ha : 0 ≤ a) :
    l.foldl max a = max a (l.foldl max 0) := by
  have : max a 0 = a := max_eq_left ha
  calc l.foldl max a = l.foldl max (max a 0) := by rw [this]
    _ = max a (l.foldl max 0) := foldl_max_shift l a 0

theorem mem_le_foldl_max (l : List Int) (a x : Int) (hx : x ∈ l) : x ≤ l.foldl max a := by
  induction l generalizing a with
  | nil => cases hx
  | cons y t ih =>
    rcases List.mem_cons.mp hx with rfl | hmem
    · exact le_trans (le_max_right a x) (le_foldl_max t (max a x))
    · exact ih (max a y) hmem

theorem foldl_max_closed (l : List Int) (a : Int) (P : Int → Prop) (hPa : P a)
    (hP : ∀ x ∈ l, P x) (hcl : ∀ x y, P x → P y → P (max x y)) :
    P (l.foldl max a) := by
  induction l generalizing a with
  | nil => exact hPa
  | cons x t ih =>
    exact ih (max a x) (hcl a x hPa (hP x (by simp))) (fun y hy => hP y (by simp [hy]))

theorem maxFieldAlignment_eq_foldl (fs : List FieldInfo) :
    maxFieldAlignment fs = (fs.map fun f => f.alignment).foldl max 0 := by
  unfold maxFieldAlignment
  rw [List.foldl_map]

theorem maxFieldAlignment_nonneg (fs : List FieldInfo) : 0 ≤ maxFieldAlignment fs := by
  rw [maxFieldAlignment_eq_foldl]
  exact le_foldl_max _ 0

theorem maxFieldAlignment_append (xs ys : List FieldInfo) :
    maxFieldAlignment (xs ++ ys) = max (maxFieldAlignment xs) (maxFieldAlignment ys) := by
  rw [maxFieldAlignment_eq_foldl, List.map_append, List.foldl_append,
    foldl_max_init _ _ (by rw [← maxFieldAlignment_eq_foldl]; exact maxFieldAlignment_nonneg xs),
    ← maxFieldAlignment_eq_foldl, ← maxFieldAlignment_eq_foldl]

theorem maxFieldAlignment_alignSet (fs : List FieldInfo) (hne : fs ≠ [])
    (h : ∀ f ∈ fs, f.alignment = 4 ∨ f.alignment = 8 ∨ f.alignment = 16) :
    maxFieldAlignment fs = 4 ∨ maxFieldAlignment fs = 8 ∨ maxFieldAlignment fs = 16 := by
  cases fs with
  | nil => exact absurd rfl hne
  | cons f t =>
    have hf := h f (by simp)
    have hstep : maxFieldAlignment (f :: t) = (t.map fun g => g.alignment).foldl max f.alignment := by
      rw [maxFieldAlignment_eq_foldl]
      simp only [List.map_cons, List.foldl_cons]
      congr 1
      exact max_eq_right (le_of_lt (alignSet_pos hf))
    rw [hstep]
    exact foldl_max_closed _ _ (fun x => x = 4 ∨ x = 8 ∨ x = 16) hf
      (fun x hx => by
        obtain ⟨g, hg, hxe⟩ := List.mem_map.mp hx
        subst hxe
        exact h g (List.mem_cons_of_mem f hg))
      (fun x y hx hy => by
        rcases hx with rfl | rfl | rfl <;> rcases hy with rfl | rfl | rfl <;> simp)

theorem mem_alignment_le_maxFieldAlignment (fs : List FieldInfo) (f : FieldInfo)
    (hf : f ∈ fs) : f.alignment ≤ maxFieldAlignment fs := by
  rw [maxFieldAlignment_eq_foldl]
  exact mem_le_foldl_max _ 0 _ (List.mem_map.mpr ⟨f, hf, rfl⟩)

theorem maxList_alignments (fs : List FieldInfo) (hne : fs ≠ [])
    (hpos : ∀ f ∈ fs, 0 < f.alignment) :
    maxList (fs.map fun f => JSNum.val f.alignment) = .val (maxFieldAlignment fs) := by
  have key : ∀ (l : List Int) (a : Int), (l.map JSNum.val).foldl jmax (.val a) = .val (l.foldl max a) := by
    intro l
    induction l with
    | nil => intro a; rfl
    | cons x t ih => intro a; simpa using ih (max a x)
  cases fs with
  | nil => exact absurd rfl hne
  | cons f t =>
    have hmap : (f :: t).map (fun g => JSNum.val g.alignment) =
        ((f :: t).map fun g => g.alignment).map JSNum.val := by
      simp [List.map_map, Function.comp]
    rw [hmap]
    unfold maxList
    simp only [List.map_cons, List.foldl_cons]
    have h0 : jmax .ninf (.val f.alignment) = .val f.alignment := rfl
    rw [h0, key, maxFieldAlignment_eq_foldl]
    simp only [List.map_cons, List.foldl_cons]
    congr 2
    exact (max_eq_right (le_of_lt (hpos f (by simp)))).symm

/-- The absolute integer offset of a descriptor; 0 for non-finite
offsets (the invariants below always come with a proof that the offset
is the finite value `val (offInt f)`). -/
def offInt (f : FieldInfo) : Int :=
  match f.offset with
  | .val n => n
  | _ => 0

/-- One leaf descriptor of a well-formed compilation: its type data is
in the table, its offset is finite, within `[lo, hi - size]`, aligned to
its own alignment, and a multiple of 4. -/
def LeafOK (lo hi : Int) (f : FieldInfo) : Prop :=
  TYPES f.type = some (f.size, f.alignment, f.componentCount) ∧
  f.offset = JSNum.val (offInt f) ∧
  lo ≤ offInt f ∧ offInt f + f.size ≤ hi ∧
  f.alignment ∣ offInt f ∧ (4:Int) ∣ offInt f

/-- All leaves in range, listed in increasing, pairwise-disjoint order. -/
def FieldsOK (lo hi : Int) (fs : List FieldInfo) : Prop :=
  (∀ f ∈ fs, LeafOK lo hi f) ∧
  fs.Pairwise fun f g => offInt f + f.size ≤ offInt g

/-- Invariant of a `_processField` result started at finite offset `n`. -/
def ResultOK (n : Int) (r : ProcResult) : Prop :=
  ∃ m : Int,
    r.alignment = .val (maxFieldAlignment r.fields) ∧
    r.nextOffset = .val m ∧
    n ≤ m ∧ (4:Int) ∣ m ∧
    r.fields ≠ [] ∧ FieldsOK n m r.fields

/-- Invariant of a `processFields` run started at finite offset `n` with
running max alignment `a0`. -/
def FieldsOut (n a0 : Int) (es : List (String × FieldSpec))
    (out : List FieldInfo × JSNum × JSNum) : Prop :=
  ∃ m : Int,
    out.2.1 = .val m ∧
    out.2.2 = .val (max a0 (maxFieldAlignment out.1)) ∧
    n ≤ m ∧ (4:Int) ∣ m ∧
    (es ≠ [] → out.1 ≠ []) ∧
    FieldsOK n m out.1

/-- Invariant of a successfully compiled record. -/
def RecordOK (rec : Record) : Prop :=
  ∃ T : Int,
    rec.totalSize = .val T ∧ 0 < T ∧ (4:Int) ∣ T ∧
    maxFieldAlignment rec.fields ∣ T ∧
    (rec.uniformBuffer = true → (16:Int) ∣ T ∧ 16 ≤ T) ∧
    rec.fields ≠ [] ∧ FieldsOK 0 T rec.fields

theorem FieldsOK_mono {lo hi lo' hi' : Int} {fs : List FieldInfo}
    (h : FieldsOK lo hi fs) (hlo : lo' ≤ lo) (hhi : hi ≤ hi') : FieldsOK lo' hi' fs := by
  obtain ⟨hmem, hpw⟩ := h
  refine ⟨fun f hf => ?_, hpw⟩
  obtain ⟨h1, h2, h3, h4, h5, h6⟩ := hmem f hf
  exact ⟨h1, h2, le_trans hlo h3, le_trans h4 hhi, h5, h6⟩

theorem LeafOK_alignSet {lo hi : Int} {f : FieldInfo} (h : LeafOK lo hi f) :
    f.alignment = 4 ∨ f.alignment = 8 ∨ f.alignment = 16 :=
  (TYPES_facts h.1).2.2.1

theorem FieldsOK_alignSet {lo hi : Int} {fs : List FieldInfo} (h : FieldsOK lo hi fs)
    (hne : fs ≠ []) :
    maxFieldAlignment fs = 4 ∨ maxFieldAlignment fs = 8 ∨ maxFieldAlignment fs = 16 :=
  maxFieldAlignment_alignSet fs hne fun f hf => LeafOK_alignSet (h.1 f hf)

theorem maxFieldAlignment_map (fs : List FieldInfo) (g : FieldInfo → FieldInfo)
    (hg : ∀ f, (g f).alignment = f.alignment) :
    maxFieldAlignment (fs.map g) = maxFieldAlignment fs := by
  unfold maxFieldAlignment
  rw [List.foldl_map]
  congr 1
  funext m f
  rw [hg]

theorem offInt_val (f : FieldInfo) (o : Int) (h : f.offset = .val o) : offInt f = o := by
  simp [offInt, h]

theorem FieldsOK_append {lo mid hi : Int} {xs ys : List FieldInfo}
    (hx : FieldsOK lo mid xs) (hy : FieldsOK mid hi ys) (hlm : lo ≤ mid) (hmh : mid ≤ hi) :
    FieldsOK lo hi (xs ++ ys) := by
  refine ⟨fun f hf => ?_, ?_⟩
  · rcases List.mem_append.mp hf with hfx | hfy
    · exact ((FieldsOK_mono hx le_rfl hmh).1) f hfx
    · exact ((FieldsOK_mono hy hlm le_rfl).1) f hfy
  · rw [List.pairwise_append]
    refine ⟨hx.2, hy.2, fun f hf g hg => ?_⟩
    have h1 := hx.1 f hf
    have h2 := hy.1 g hg
    calc offInt f + f.size ≤ mid := h1.2.2.2.1
      _ ≤ offInt g := h2.2.2.1

/-- Correctness of `_processPrimitive` at a finite 4-aligned offset. -/
theorem processPrimitive_ok (name tag : String) (n : Int) (path : List String)
    (h : (TYPES tag).isSome = true) (hn : 0 ≤ n) (hn4 : (4:Int) ∣ n) :
    ∃ r, processPrimitive name tag (.val n) path = .ok r ∧ ResultOK n r := by
  obtain ⟨⟨s, a, c⟩, htag⟩ := Option.isSome_iff_exists.mp h
  obtain ⟨hs, hs4, ha, hc, hcs⟩ := TYPES_facts htag
  have ha0 : 0 < a := alignSet_pos ha
  have ha4 : (4:Int) ∣ a := alignSet_dvd_four ha
  have hbd : a ∣ alignUp n a := alignUp_dvd n a hn ha0
  have hb4 : (4:Int) ∣ alignUp n a := dvd_trans ha4 hbd
  have hble : n ≤ alignUp n a := le_alignUp n a hn ha0
  have heval : processPrimitive name tag (.val n) path = .ok
      { fields := [{ name := name, type := tag, offset := .val (alignUp n a), size := s,
                     alignment := a, componentCount := c, path := path }],
        alignment := .val a,
        nextOffset := .val (alignUp n a + s) } := by
    simp only [processPrimitive, htag]
    rw [jsPad_val_val n a (ne_of_gt ha0)]
    simp only [add_val_val]
    rfl
  refine ⟨_, heval, alignUp n a + s, ?_, rfl, by omega, dvd_add hb4 hs4, by simp, ?_⟩
  · simp only [ProcResult.alignment]
    congr 1
    simp [maxFieldAlignment, max_eq_right (le_of_lt ha0)]
  · refine ⟨fun f hf => ?_, by simp⟩
    rw [List.mem_singleton] at hf
    subst hf
    refine ⟨htag, rfl, ?_, ?_, ?_, ?_⟩ <;> simp only [offInt]
    · omega
    · omega
    · exact hbd
    · exact hb4

/-- Correctness of the `_processNestedStruct` tail, given the invariant
for the recursively laid-out nested fields. -/
theorem nestedTail_ok (fs : List FieldInfo) (m n : Int)
    (hne : fs ≠ []) (hOK : FieldsOK 0 m fs) (hm0 : 0 ≤ m) (hm4 : (4:Int) ∣ m)
    (hn : 0 ≤ n) (hn4 : (4:Int) ∣ n) :
    ResultOK n (nestedTail fs (.val m) (.val (maxFieldAlignment fs)) (.val n)) := by
  set A := maxFieldAlignment fs with hAdef
  have hA : A = 4 ∨ A = 8 ∨ A = 16 := FieldsOK_alignSet hOK hne
  have hA0 : 0 < A := alignSet_pos hA
  have hA4 : (4:Int) ∣ A := alignSet_dvd_four hA
  have hbase_dvd : A ∣ alignUp n A := alignUp_dvd n A hn hA0
  have hbase4 : (4:Int) ∣ alignUp n A := dvd_trans hA4 hbase_dvd
  have hbase_le : n ≤ alignUp n A := le_alignUp n A hn hA0
  have hbase0 : 0 ≤ alignUp n A := le_trans hn hbase_le
  have hm_le : m ≤ alignUp m A := le_alignUp m A hm0 hA0
  have hmup4 : (4:Int) ∣ alignUp m A := dvd_trans hA4 (alignUp_dvd m A hm0 hA0)
  have heval : nestedTail fs (.val m) (.val A) (.val n) =
      { fields := fs.map fun f => { f with offset := add (.val (alignUp n A)) f.offset },
        alignment := .val A,
        nextOffset := .val (alignUp n A + alignUp m A) } := by
    simp only [nestedTail, jsPad_val_val n A (ne_of_gt hA0),
      jsPad_val_val m A (ne_of_gt hA0), add_val_val]
    rfl
  rw [heval]
  refine ⟨alignUp n A + alignUp m A, ?_, rfl, by omega, dvd_add hbase4 hmup4, by simp [hne], ?_⟩
  · simp only [ProcResult.alignment]
    rw [maxFieldAlignment_map fs (fun f => { f with offset := add (.val (alignUp n A)) f.offset })
      (fun f => rfl)]
  · refine ⟨fun g hg => ?_, ?_⟩
    · obtain ⟨f, hf, rfl⟩ := List.mem_map.mp hg
      obtain ⟨h1, h2, h3, h4, h5, h6⟩ := hOK.1 f hf
      have hoff : ({ f with offset := add (.val (alignUp n A)) f.offset } : FieldInfo).offset =
          .val (alignUp n A + offInt f) := by
        rw [h2]; rfl
      have hoffInt : offInt { f with offset := add (.val (alignUp n A)) f.offset } =
          alignUp n A + offInt f := offInt_val _ _ hoff
      have hdvdA : f.alignment ∣ A :=
        alignSet_dvd (LeafOK_alignSet ⟨h1, h2, h3, h4, h5, h6⟩) hA
          (hAdef ▸ mem_alignment_le_maxFieldAlignment fs f hf)
      refine ⟨h1, ?_, ?_, ?_, ?_, ?_⟩
      · rw [hoff, hoffInt]
      · rw [hoffInt]; omega
      · rw [hoffInt]; simp only [FieldInfo.size]; omega
      · rw [hoffInt]
        exact dvd_add (dvd_trans hdvdA hbase_dvd) h5
      · rw [hoffInt]
        exact dvd_add hbase4 h6
    · rw [List.pairwise_map]
      refine List.Pairwise.imp_of_mem ?_ hOK.2
      intro f g hf hg hfg
      have h2f := (hOK.1 f hf).2.1
      have h2g := (hOK.1 g hg).2.1
      have hof : offInt { f with offset := add (.val (alignUp n A)) f.offset } =
          alignUp n A + offInt f := offInt_val _ _ (by rw [h2f]; rfl)
      have hog : offInt { g with offset := add (.val (alignUp n A)) g.offset } =
          alignUp n A + offInt g := offInt_val _ _ (by rw [h2g]; rfl)
      rw [hof, hog]
      simp only [FieldInfo.size]
      omega

/-- Correctness of the `_computeLayout` tail: the final padded size. -/
theorem compileFinish_ok (fs : List FieldInfo) (m : Int) (u : Bool)
    (hne : fs ≠ []) (hOK : FieldsOK 0 m fs) (hm0 : 0 ≤ m) (hm4 : (4:Int) ∣ m) :
    RecordOK (compileFinish fs (.val m) (.val (maxFieldAlignment fs)) u) := by
  set A := maxFieldAlignment fs with hAdef
  have hA : A = 4 ∨ A = 8 ∨ A = 16 := FieldsOK_alignSet hOK hne
  have hA0 : 0 < A := alignSet_pos hA
  have hA16 : A ∣ 16 := alignSet_dvd_sixteen hA
  have hm_pos : 0 < m := by
    obtain ⟨f, hf⟩ := List.exists_mem_of_ne_nil fs hne
    obtain ⟨h1, h2, h3, h4, h5, h6⟩ := hOK.1 f hf
    have := (TYPES_facts h1).1
    omega
  have key : ∀ A' : Int, 0 < A' → (4:Int) ∣ A' → A ∣ A' →
      ∃ T : Int, add (.val m) (jsPad (.val m) (.val A')) = .val T ∧ 0 < T ∧
        (4:Int) ∣ T ∧ A ∣ T ∧ A' ∣ T ∧ m ≤ T := by
    intro A' hA'0 hA'4 hAA'
    refine ⟨alignUp m A', ?_, ?_, ?_, ?_, ?_, le_alignUp m A' hm0 hA'0⟩
    · rw [jsPad_val_val m A' (ne_of_gt hA'0), add_val_val]; rfl
    · have := le_alignUp m A' hm0 hA'0; omega
    · exact dvd_trans hA'4 (alignUp_dvd m A' hm0 hA'0)
    · exact dvd_trans hAA' (alignUp_dvd m A' hm0 hA'0)
    · exact alignUp_dvd m A' hm0 hA'0
  cases u with
  | false =>
    obtain ⟨T, hT, hT0, hT4, hAT, _, hmT⟩ := key A hA0 (alignSet_dvd_four hA) dvd_rfl
    exact ⟨T, hT, hT0, hT4, hAT, by simp [compileFinish], hne,
      FieldsOK_mono hOK le_rfl hmT⟩
  | true =>
    have hmax : jmax (.val A) (.val 16) = .val 16 := by
      rw [jmax_val_val]
      congr 1
      rcases hA with h | h | h <;> rw [h] <;> decide
    obtain ⟨T, hT, hT0, hT4, hAT, h16T, hmT⟩ := key 16 (by norm_num) (by norm_num) hA16
    refine ⟨T, ?_, hT0, hT4, hAT, fun _ => ⟨h16T, Int.le_of_dvd hT0 h16T⟩, hne,
      FieldsOK_mono hOK le_rfl hmT⟩
    simp only [compileFinish, if_true, hmax]
    exact hT

theorem alignUp_unique (x a y : Int) (hx : 0 ≤ x) (ha : 0 < a) (hdvd : a ∣ y)
    (h1 : x ≤ y) (h2 : y < x + a) : y = alignUp x a := by
  have hd2 := alignUp_dvd x a hx ha
  have hu1 := le_alignUp x a hx ha
  have hu2 := alignUp_lt x a hx ha
  obtain ⟨k, hk⟩ : a ∣ y - alignUp x a := dvd_sub hdvd hd2
  have hb1 : a * k < a := by omega
  have hb2 : -a < a * k := by omega
  have hk0 : k = 0 := by
    by_contra hne
    rcases lt_or_gt_of_ne hne with hlt | hgt
    · have hle : a * k ≤ a * (-1) := mul_le_mul_of_nonneg_left (by omega) (le_of_lt ha)
      have : a * (-1) = -a := by ring
      omega
    · have hle : a * 1 ≤ a * k := mul_le_mul_of_nonneg_left (by omega) (le_of_lt ha)
      have : a * 1 = a := by ring
      omega
  have : a * k = 0 := by rw [hk0]; ring
  omega

/-- The engine's stride rounding `Math.ceil(x / a) * a` equals `alignUp`. -/
theorem ceilDiv_mul (x a : Int) (hx : 0 ≤ x) (ha : 0 < a) :
    -((-x).fdiv a) * a = alignUp x a := by
  have heq : (-x).fmod a + a * ((-x).fdiv a) = -x := Int.fmod_add_fdiv (-x) a
  have hr0 : 0 ≤ (-x).fmod a := Int.fmod_nonneg' (-x) ha
  have hra : (-x).fmod a < a := Int.fmod_lt_of_pos (-x) ha
  set q := (-x).fdiv a
  set r := (-x).fmod a
  have ht : a * q = -x - r := by omega
  have hval : -q * a = x + r := by
    have : -q * a = -(a * q) := by ring
    omega
  refine alignUp_unique x a (-q * a) hx ha ⟨-q, by ring⟩ (by omega) (by omega)

/-- One replicated array element block: the element fields shifted to a
common base `b` that every element alignment divides. -/
theorem blockFieldsOK (efs : List FieldInfo) (T b : Int) (u : FieldInfo → FieldInfo)
    (hoff : ∀ ef, (u ef).offset = add (.val b) ef.offset)
    (hkeep : ∀ ef, (u ef).type = ef.type ∧ (u ef).size = ef.size ∧
        (u ef).alignment = ef.alignment ∧ (u ef).componentCount = ef.componentCount)
    (hOK : FieldsOK 0 T efs)
    (hdvd : ∀ ef ∈ efs, ef.alignment ∣ b)
    (hb0 : 0 ≤ b) (hb4 : (4:Int) ∣ b) :
    FieldsOK b (b + T) (efs.map u) := by
  refine ⟨fun f' hf' => ?_, ?_⟩
  · obtain ⟨ef, hef, rfl⟩ := List.mem_map.mp hf'
    obtain ⟨h1, h2, h3, h4, h5, h6⟩ := hOK.1 ef hef
    obtain ⟨k1, k2, k3, k4⟩ := hkeep ef
    have hoffv : (u ef).offset = .val (b + offInt ef) := by rw [hoff, h2]; rfl
    have hoi : offInt (u ef) = b + offInt ef := offInt_val _ _ hoffv
    refine ⟨?_, ?_, ?_, ?_, ?_, ?_⟩
    · rw [k1, k2, k3, k4]; exact h1
    · rw [hoffv, hoi]
    · rw [hoi]; omega
    · rw [hoi, k2]; omega
    · rw [hoi, k3]; exact dvd_add (hdvd ef hef) h5
    · rw [hoi]; exact dvd_add hb4 h6
  · rw [List.pairwise_map]
    refine List.Pairwise.imp_of_mem ?_ hOK.2
    intro f g hf hg hfg
    have h2f := (hOK.1 f hf).2.1
    have h2g := (hOK.1 g hg).2.1
    have hof : offInt (u f) = b + offInt f := offInt_val _ _ (by rw [hoff, h2f]; rfl)
    have hog : offInt (u g) = b + offInt g := offInt_val _ _ (by rw [hoff, h2g]; rfl)
    rw [hof, hog, (hkeep f).2.1]
    omega

/-- The fields of all `L` replicated array elements: within
`[base, base + stride·L)`, disjoint and aligned. -/
theorem flatRange_fieldsOK (efs : List FieldInfo) (L : Nat) (T stride base : Int)
    (u : Nat → FieldInfo → FieldInfo)
    (hoff : ∀ i ef, (u i ef).offset = add (.val (base + (i:Int) * stride)) ef.offset)
    (hkeep : ∀ i ef, (u i ef).type = ef.type ∧ (u i ef).size = ef.size ∧
        (u i ef).alignment = ef.alignment ∧ (u i ef).componentCount = ef.componentCount)
    (hOK : FieldsOK 0 T efs)
    (hdvd : ∀ ef ∈ efs, ef.alignment ∣ base ∧ ef.alignment ∣ stride)
    (hTs : T ≤ stride) (hT0 : 0 ≤ T) (hbase0 : 0 ≤ base) (hb4 : (4:Int) ∣ base)
    (hs4 : (4:Int) ∣ stride) :
    FieldsOK base (base + stride * L) ((List.range L).flatMap fun i => efs.map (u i)) := by
  induction L with
  | zero => exact ⟨by simp, by simp⟩
  | succ k ih =>
    rw [List.range_succ, List.flatMap_append]
    have hstep : ([k].flatMap fun i => efs.map (u i)) = efs.map (u k) := by
      simp
    rw [hstep]
    have hsn : 0 ≤ stride := le_trans hT0 hTs
    have hkn : (0:Int) ≤ (k:Int) := Int.natCast_nonneg k
    have hsk : 0 ≤ stride * (k:Int) := mul_nonneg hsn hkn
    have hblock : FieldsOK (base + (k:Int) * stride) (base + (k:Int) * stride + T)
        (efs.map (u k)) :=
      blockFieldsOK efs T (base + (k:Int) * stride) (u k) (hoff k) (hkeep k) hOK
        (fun ef hef => dvd_add (hdvd ef hef).1 (Dvd.dvd.mul_left (hdvd ef hef).2 _))
        (add_nonneg hbase0 (mul_nonneg hkn hsn)) (dvd_add hb4 (Dvd.dvd.mul_left hs4 _))
    have hcomm : base + (k:Int) * stride = base + stride * (k:Int) := by ring
    rw [hcomm] at hblock
    have hexp : stride * ((k:Int) + 1) = stride * (k:Int) + stride := by ring
    have hcast : ((k + 1 : Nat) : Int) = (k:Int) + 1 := by push_cast; ring
    have hupper : base + stride * (k:Int) + T ≤ base + stride * ((k + 1 : Nat) : Int) := by
      rw [hcast, hexp]; omega
    have happ := FieldsOK_append ih (FieldsOK_mono hblock le_rfl hupper)
      (by omega) (by omega)
    exact happ

theorem flatRange_maxFA (efs : List FieldInfo) (L : Nat) (u : Nat → FieldInfo → FieldInfo)
    (halign : ∀ i ef, (u i ef).alignment = ef.alignment) (hL : 0 < L) :
    maxFieldAlignment ((List.range L).flatMap fun i => efs.map (u i)) =
      maxFieldAlignment efs := by
  induction L with
  | zero => omega
  | succ k ih =>
    rw [List.range_succ, List.flatMap_append]
    have hstep : ([k].flatMap fun i => efs.map (u i)) = efs.map (u k) := by simp
    rw [hstep, maxFieldAlignment_append, maxFieldAlignment_map efs (u k) (halign k)]
    rcases Nat.eq_zero_or_pos k with rfl | hk
    · have h0 : ((List.range 0).flatMap fun i => efs.map (u i)) = [] := by simp
      rw [h0]
      have h1 : maxFieldAlignment [] = 0 := rfl
      rw [h1]
      exact max_eq_right (maxFieldAlignment_nonneg efs)
    · rw [ih hk, max_self]

theorem flatRange_ne_nil (efs : List FieldInfo) (L : Nat) (u : Nat → FieldInfo → FieldInfo)
    (hL : 0 < L) (hne : efs ≠ []) :
    ((List.range L).flatMap fun i => efs.map (u i)) ≠ [] := by
  cases L with
  | zero => omega
  | succ k =>
    intro h
    rw [List.range_succ, List.flatMap_append] at h
    have := List.append_eq_nil.mp h
    have hstep : ([k].flatMap fun i => efs.map (u i)) = efs.map (u k) := by simp
    rw [hstep] at this
    exact hne (List.map_eq_nil_iff.mp this.2)

/-- Correctness of the `_processArray` tail, given the invariant of the
compiled element record. -/
theorem arrayTail_ok (name : String) (rc : Record) (len n : Int) (path : List String)
    (hrec : RecordOK rc) (hlen : 0 < len) (hn : 0 ≤ n) (hn4 : (4:Int) ∣ n) :
    ResultOK n (arrayTail name rc len (.val n) path) := by
  obtain ⟨T, htot, hT0, hT4, hmaxdvd, huni, hne, hOK⟩ := hrec
  set A := maxFieldAlignment rc.fields with hAdef
  have hA : A = 4 ∨ A = 8 ∨ A = 16 := FieldsOK_alignSet hOK hne
  have hA0 : 0 < A := alignSet_pos hA
  have hA4 : (4:Int) ∣ A := alignSet_dvd_four hA
  have hml : maxList (rc.fields.map fun f => JSNum.val f.alignment) = .val A :=
    maxList_alignments rc.fields hne fun f hf => alignSet_pos (LeafOK_alignSet (hOK.1 f hf))
  have hmx0 : (0:Int) ≤ max T 16 := by omega
  set base := alignUp n A with hbdef
  set stride := alignUp (max T 16) A with hsdef
  have hbase_dvd : A ∣ base := alignUp_dvd n A hn hA0
  have hbase4 : (4:Int) ∣ base := dvd_trans hA4 hbase_dvd
  have hbase_le : n ≤ base := le_alignUp n A hn hA0
  have hbase0 : 0 ≤ base := le_trans hn hbase_le
  have hstride_dvd : A ∣ stride := alignUp_dvd (max T 16) A hmx0 hA0
  have hstride4 : (4:Int) ∣ stride := dvd_trans hA4 hstride_dvd
  have hstride_ge : max T 16 ≤ stride := le_alignUp (max T 16) A hmx0 hA0
  have hstrideT : T ≤ stride := le_trans (le_max_left T 16) hstride_ge
  have hstride16 : 16 ≤ stride := le_trans (le_max_right T 16) hstride_ge
  have hL : 0 < len.toNat := by omega
  set updf : Nat → FieldInfo → FieldInfo := fun i ef =>
    { ef with
        name := name ++ "." ++ toString i ++ "." ++ ef.name,
        offset := add (.val (base + (i:Int) * stride)) ef.offset,
        path := path ++ [toString i, ef.name],
        isArray := true,
        arrayLength := some len,
        arrayStride := some (.val stride) } with hupdf
  have heval : arrayTail name rc len (.val n) path =
      { fields := (List.range len.toNat).flatMap fun i => rc.fields.map (updf i),
        alignment := .val A,
        nextOffset := .val (base + stride * len) } := by
    simp only [arrayTail, htot, hml, jsPad_val_val n A (ne_of_gt hA0), jmax_val_val,
      divCeil_val_val _ _ (ne_of_gt hA0), mul_val_val, add_val_val,
      ceilDiv_mul (max T 16) A hmx0 hA0]
    rfl
  rw [heval]
  have hmul0 : 0 ≤ stride * len := mul_nonneg (by omega) (le_of_lt hlen)
  refine ⟨base + stride * len, ?_, rfl, by omega,
    dvd_add hbase4 (Dvd.dvd.mul_right hstride4 len), ?_, ?_⟩
  · simp only [ProcResult.alignment]
    rw [flatRange_maxFA rc.fields len.toNat updf (fun i ef => rfl) hL]
  · simp only [ProcResult.fields]
    exact flatRange_ne_nil rc.fields len.toNat updf hL hne
  · have hflat := flatRange_fieldsOK rc.fields len.toNat T stride base updf
      (fun i ef => rfl) (fun i ef => ⟨rfl, rfl, rfl, rfl⟩) hOK
      (fun ef hef => by
        have hdA : ef.alignment ∣ A :=
          alignSet_dvd (LeafOK_alignSet (hOK.1 ef hef)) hA
            (hAdef ▸ mem_alignment_le_maxFieldAlignment rc.fields ef hef)
        exact ⟨dvd_trans hdA hbase_dvd, dvd_trans hdA hstride_dvd⟩)
      hstrideT (by omega) hbase0 hbase4 hstride4
    have hcast : ((len.toNat : Nat) : Int) = len := Int.toNat_of_nonneg (le_of_lt hlen)
    rw [hcast] at hflat
    exact FieldsOK_mono hflat hbase_le le_rfl

/-! ### The master induction: well-formed layouts compile successfully
with finite, aligned, pairwise-disjoint leaf offsets. -/

mutual

theorem processField_ok (name : String) (spec : FieldSpec) (n : Int) (path : List String)
    (hwf : wfField spec = true) (hn : 0 ≤ n) (hn4 : (4:Int) ∣ n) :
    ∃ r, processField name spec (.val n) path = .ok r ∧ ResultOK n r := by
  match spec with
  | .prim tag =>
    rw [processField_prim_def]
    exact processPrimitive_ok name tag n path (by simpa [wfField] using hwf) hn hn4
  | .nested layout =>
    rw [wfField] at hwf
    obtain ⟨hne, hwl⟩ := Bool.and_eq_true_iff.mp hwf
    have hlne : layout ≠ [] := by
      intro h; subst h; simp at hne
    obtain ⟨out, hout, hinv⟩ :=
      processFields_ok layout 0 0 path hwl le_rfl ⟨0, rfl⟩ le_rfl
    obtain ⟨fs, o, ma⟩ := out
    obtain ⟨m, ho, hma, hmle, hm4, hne2, hOK⟩ := hinv
    replace ho : o = .val m := ho
    replace hma : ma = .val (max 0 (maxFieldAlignment fs)) := hma
    replace hne2 : layout ≠ [] → fs ≠ [] := hne2
    replace hOK : FieldsOK 0 m fs := hOK
    have hfs_ne : fs ≠ [] := hne2 hlne
    rw [max_eq_right (maxFieldAlignment_nonneg fs)] at hma
    subst ho; subst hma
    refine ⟨_, ?_, nestedTail_ok fs m n hfs_ne hOK (by omega) hm4 hn hn4⟩
    rw [processField_nested_def, hout, exbind_ok]
  | .arr elemLayout elemUniform len =>
    rw [wfField] at hwf
    obtain ⟨hlen, hrest⟩ := Bool.and_eq_true_iff.mp hwf
    obtain ⟨hne, hwl⟩ := Bool.and_eq_true_iff.mp hrest
    have hlen' : 0 < len := of_decide_eq_true hlen
    have hlne : elemLayout ≠ [] := by
      intro h; subst h; simp at hne
    obtain ⟨out, hout, hinv⟩ :=
      processFields_ok elemLayout 0 0 [] hwl le_rfl ⟨0, rfl⟩ le_rfl
    obtain ⟨fs, o, ma⟩ := out
    obtain ⟨m, ho, hma, hmle, hm4, hne2, hOK⟩ := hinv
    replace ho : o = .val m := ho
    replace hma : ma = .val (max 0 (maxFieldAlignment fs)) := hma
    replace hne2 : elemLayout ≠ [] → fs ≠ [] := hne2
    replace hOK : FieldsOK 0 m fs := hOK
    have hfs_ne : fs ≠ [] := hne2 hlne
    rw [max_eq_right (maxFieldAlignment_nonneg fs)] at hma
    subst ho; subst hma
    have hrec := compileFinish_ok fs m elemUniform hfs_ne hOK (by omega) hm4
    refine ⟨_, ?_, arrayTail_ok name _ len n path hrec hlen' hn hn4⟩
    rw [processField_arr_def, if_neg (by omega),
      if_neg (by simp [List.isEmpty_iff, hlne]), hout, exbind_ok]
  | .arrPrim tag len => simp [wfField] at hwf

theorem processFields_ok (es : List (String × FieldSpec)) (n a0 : Int) (path : List String)
    (hwf : wfLayout es = true) (hn : 0 ≤ n) (hn4 : (4:Int) ∣ n) (ha0 : 0 ≤ a0) :
    ∃ out, processFields es (.val n) (.val a0) path = .ok out ∧ FieldsOut n a0 es out := by
  match es with
  | [] =>
    refine ⟨([], .val n, .val a0), processFields_nil _ _ _, n, rfl, ?_, le_rfl, hn4,
      by simp, by simp, List.Pairwise.nil⟩
    show JSNum.val a0 = .val (max a0 (maxFieldAlignment []))
    have h0 : maxFieldAlignment [] = 0 := rfl
    rw [h0, max_eq_left ha0]
  | (nm, spec) :: rest =>
    rw [wfLayout] at hwf
    obtain ⟨hwfF, hwfR⟩ := Bool.and_eq_true_iff.mp hwf
    obtain ⟨r, hr, hrOK⟩ := processField_ok nm spec n (path ++ [nm]) hwfF hn hn4
    obtain ⟨m1, hal, hnext, hm1le, hm1d4, hrne, hrOKf⟩ := hrOK
    have ha0' : 0 ≤ max a0 (maxFieldAlignment r.fields) :=
      le_trans ha0 (le_max_left _ _)
    obtain ⟨out2, hout2, hinv2⟩ :=
      processFields_ok rest m1 (max a0 (maxFieldAlignment r.fields)) path hwfR
        (le_trans hn hm1le) hm1d4 ha0'
    obtain ⟨fs2, o2, ma2⟩ := out2
    obtain ⟨m2, ho2, hma2, hm2le, hm2d4, hne2, hOK2⟩ := hinv2
    replace ho2 : o2 = .val m2 := ho2
    replace hma2 : ma2 = .val (max (max a0 (maxFieldAlignment r.fields))
      (maxFieldAlignment fs2)) := hma2
    replace hOK2 : FieldsOK m1 m2 fs2 := hOK2
    refine ⟨(r.fields ++ fs2, o2, ma2), ?_, m2, ho2, ?_, le_trans hm1le hm2le, hm2d4,
      fun _ => by simp [hrne], ?_⟩
    · rw [processFields_cons, hr, exbind_ok, hnext, hal, jmax_val_val, hout2, exbind_ok]
    · show ma2 = .val (max a0 (maxFieldAlignment (r.fields ++ fs2)))
      rw [hma2, maxFieldAlignment_append, max_assoc]
    · show FieldsOK n m2 (r.fields ++ fs2)
      exact FieldsOK_append hrOKf hOK2 hm1le hm2le

end

/-- Correctness of the whole constructor on well-formed layouts. -/
theorem compile_ok (layout : List (String × FieldSpec)) (u : Bool)
    (hwf : wfLayout layout = true) (hne : layout ≠ []) :
    ∃ rc, compile layout u = .ok rc ∧ rc.uniformBuffer = u ∧ RecordOK rc := by
  obtain ⟨out, hout, hinv⟩ := processFields_ok layout 0 0 [] hwf le_rfl ⟨0, rfl⟩ le_rfl
  obtain ⟨fs, o, ma⟩ := out
  obtain ⟨m, ho, hma, hmle, hm4, hne2, hOK⟩ := hinv
  replace ho : o = .val m := ho
  replace hma : ma = .val (max 0 (maxFieldAlignment fs)) := hma
  replace hne2 : layout ≠ [] → fs ≠ [] := hne2
  replace hOK : FieldsOK 0 m fs := hOK
  have hfs_ne : fs ≠ [] := hne2 hne
  rw [max_eq_right (maxFieldAlignment_nonneg fs)] at hma
  subst ho; subst hma
  refine ⟨_, ?_, rfl, compileFinish_ok fs m u hfs_ne hOK (by omega) hm4⟩
  rw [compile, if_neg (by simp [List.isEmpty_iff, hne]), hout]
  rfl

/-! ### Claim theorems -/

/-- A demonstration layout exercising primitives, nesting and arrays,
used by witness theorems. -/
def demoLayout : List (String × FieldSpec) :=
  [("a", .prim "f32"),
   ("b", .nested [("c", .prim "vec3f")]),
   ("d", .arr [("e", .prim "vec2f")] false 2)]

/-- The record compiled from `demoLayout`. -/
def demoRecord : Record :=
  match compile demoLayout false with
  | .ok r => r
  | .error _ => { fields := [], totalSize := .nan, uniformBuffer := false }

theorem demoRecord_eq : compile demoLayout false = .ok demoRecord := by rfl

/-- C6: every leaf descriptor of a successfully compiled well-formed
record — including leaves inside nested records and array elements at
any depth — has a finite absolute offset that is a multiple of that
leaf's own alignment. -/
theorem C6_leaf_offsets_aligned (layout : List (String × FieldSpec)) (u : Bool)
    (rc : Record) (hwf : wfLayout layout = true) (hne : layout ≠ [])
    (hc : compile layout u = .ok rc) :
    ∀ f ∈ rc.fields, ∃ o : Int, f.offset = .val o ∧ f.alignment ∣ o := by
  obtain ⟨rc', hc', _, hOK⟩ := compile_ok layout u hwf hne
  rw [hc] at hc'
  injection hc' with h
  subst h
  obtain ⟨T, _, _, _, _, _, _, hmem, _⟩ := hOK
  intro f hf
  obtain ⟨h1, h2, h3, h4, h5, h6⟩ := hmem f hf
  exact ⟨offInt f, h2, h5⟩

theorem C6_witness :
    (wfLayout demoLayout = true ∧ demoLayout ≠ []) ∧
    ∀ f ∈ demoRecord.fields, ∃ o : Int, f.offset = .val o ∧ f.alignment ∣ o :=
  ⟨⟨by decide, by exact List.cons_ne_nil _ _⟩,
    C6_leaf_offsets_aligned demoLayout false demoRecord (by decide)
      (List.cons_ne_nil _ _) demoRecord_eq⟩

/-- C2: in a successfully compiled well-formed record, the byte ranges
`[offset, offset + size)` of two leaf descriptors at distinct positions
never intersect. -/
theorem C2_no_overlap (layout : List (String × FieldSpec)) (u : Bool)
    (rc : Record) (hwf : wfLayout layout = true) (hne : layout ≠ [])
    (hc : compile layout u = .ok rc) :
    ∀ (i j : Nat) (fi fj : FieldInfo) (oi oj : Int),
      rc.fields[i]? = some fi → rc.fields[j]? = some fj → i ≠ j →
      fi.offset = .val oi → fj.offset = .val oj →
      ∀ x : Int, ¬(oi ≤ x ∧ x < oi + fi.size ∧ oj ≤ x ∧ x < oj + fj.size) := by
  obtain ⟨rc', hc', _, hOK⟩ := compile_ok layout u hwf hne
  rw [hc] at hc'
  injection hc' with h
  subst h
  obtain ⟨T, _, _, _, _, _, _, _, hpw⟩ := hOK
  have hkey : ∀ (i j : Nat) (fi fj : FieldInfo) (oi oj : Int),
      rc.fields[i]? = some fi → rc.fields[j]? = some fj → i < j →
      fi.offset = .val oi → fj.offset = .val oj → oi + fi.size ≤ oj := by
    intro i j fi fj oi oj hgi hgj hij hoi hoj
    obtain ⟨hi, hei⟩ := List.getElem?_eq_some.mp hgi
    obtain ⟨hj, hej⟩ := List.getElem?_eq_some.mp hgj
    have := List.pairwise_iff_getElem.mp hpw i j hi hj hij
    rw [hei, hej] at this
    rwa [offInt_val fi oi hoi, offInt_val fj oj hoj] at this
  intro i j fi fj oi oj hgi hgj hij hoi hoj x hx
  rcases Nat.lt_or_ge i j with hlt | hge
  · have := hkey i j fi fj oi oj hgi hgj hlt hoi hoj
    omega
  · have hlt : j < i := by omega
    have := hkey j i fj fi oj oi hgj hgi hlt hoj hoi
    omega

theorem C2_witness :
    (wfLayout demoLayout = true ∧ demoLayout ≠ []) ∧
    ∀ (i j : Nat) (fi fj : FieldInfo) (oi oj : Int),
      demoRecord.fields[i]? = some fi → demoRecord.fields[j]? = some fj → i ≠ j →
      fi.offset = .val oi → fj.offset = .val oj →
      ∀ x : Int, ¬(oi ≤ x ∧ x < oi + fi.size ∧ oj ≤ x ∧ x < oj + fj.size) :=
  ⟨⟨by decide, by exact List.cons_ne_nil _ _⟩,
    C2_no_overlap demoLayout false demoRecord (by decide)
      (List.cons_ne_nil _ _) demoRecord_eq⟩

/-- C5: the total size of a successfully compiled well-formed record is
finite, a multiple of the maximum alignment among its members (which
equals the maximum leaf alignment), additionally a multiple of 16 in
uniform mode, and in uniform mode at least 16 even when the natural max
alignment is below 16. -/
theorem C5_total_size (layout : List (String × FieldSpec)) (u : Bool)
    (rc : Record) (hwf : wfLayout layout = true) (hne : layout ≠ [])
    (hc : compile layout u = .ok rc) :
    ∃ T : Int, rc.totalSize = .val T ∧
      maxFieldAlignment rc.fields ∣ T ∧
      (u = true → (16:Int) ∣ T) ∧
      (u = true → maxFieldAlignment rc.fields < 16 → 16 ≤ T) := by
  obtain ⟨rc', hc', hub, hOK⟩ := compile_ok layout u hwf hne
  rw [hc] at hc'
  injection hc' with h
  subst h
  obtain ⟨T, htot, hpos, h4, hdvd, huni, _, _⟩ := hOK
  exact ⟨T, htot, hdvd, fun hu => (huni (hub.trans hu)).1,
    fun hu _ => (huni (hub.trans hu)).2⟩

theorem C5_witness :
    (wfLayout [("value", FieldSpec.prim "f32")] = true ∧
      [("value", FieldSpec.prim "f32")] ≠ ([] : List (String × FieldSpec))) ∧
    ∃ rc, compile [("value", .prim "f32")] true = .ok rc ∧
      ∃ T : Int, rc.totalSize = .val T ∧
        maxFieldAlignment rc.fields ∣ T ∧
        (true = true → (16:Int) ∣ T) ∧
        (true = true → maxFieldAlignment rc.fields < 16 → 16 ≤ T) := by
  refine ⟨⟨by decide, List.cons_ne_nil _ _⟩, ?_⟩
  match hc : compile [("value", .prim "f32")] true with
  | .ok rc =>
    exact ⟨rc, rfl, C5_total_size [("value", .prim "f32")] true rc (by decide)
      (List.cons_ne_nil _ _) hc⟩
  | .error e => exact absurd hc (by rw [show compile [("value", FieldSpec.prim "f32")] true =
      .ok { fields := [{ name := "value", type := "f32", offset := .val 0, size := 4,
                         alignment := 4, componentCount := 1, path := ["value"] }],
            totalSize := .val 16, uniformBuffer := true } from rfl]; simp)

/-- C9: the empty-specification check applies only at the top level.  A
record whose specification contains an empty nested specification is
constructed without any error; the nested pass computes padding modulo
a zero max-alignment, so the total size and all later (re-based)
offsets come out `NaN` instead of a reported failure. -/
theorem C9_empty_nested_layout (nm nm2 nm3 : String) :
    (compile [(nm, .nested [])] false).map (fun rc => (rc.totalSize, rc.fields)) =
      .ok (.nan, []) ∧
    (compile [(nm, .nested []), (nm2, .prim "f32")] false).map
        (fun rc => (rc.totalSize, rc.fields.map fun f => f.offset)) =
      .ok (.nan, [.nan]) ∧
    (compile [(nm, .nested [(nm2, .nested []), (nm3, .prim "f32")])] false).map
        (fun rc => (rc.totalSize, rc.fields.map fun f => f.offset)) =
      .ok (.nan, [.nan]) := by
  refine ⟨rfl, rfl, rfl⟩

/-- C4 counterexample: an array field whose element specification is a
recognized primitive type tag with positive length does NOT compile;
the element dispatch rejects the string with the
`Invalid array element specification` error, a construction-time
failure mode beyond the three listed in the claim. -/
theorem C4_counterexample :
    compile [("a", .arrPrim "f32" 1)] false = .error (.invalidElementSpec "a") := by rfl

/-- C4 amended: a primitive-tag array element with positive length fails
with `InvalidElementSpec` (`Invalid array element specification`); with
non-positive length the length check fires first
(`InvalidArrayLength`); arrays whose element is a nonempty well-formed
nested specification or pre-compiled record do compile. -/
theorem C4_amended (nm tag : String) (len : Int) :
    (0 < len → compile [(nm, .arrPrim tag len)] false =
      .error (.invalidElementSpec nm)) ∧
    (len ≤ 0 → compile [(nm, .arrPrim tag len)] false =
      .error (.invalidArrayLength nm)) ∧
    (∀ (elemLayout : List (String × FieldSpec)) (elemUniform : Bool),
      wfLayout elemLayout = true → elemLayout ≠ [] → 0 < len →
      ∃ rc, compile [(nm, .arr elemLayout elemUniform len)] false = .ok rc) := by
  refine ⟨?_, ?_, ?_⟩
  · intro hlen
    rw [compile, if_neg (by simp), processFields_cons, processField_arrPrim_def,
      if_neg (by omega)]
    rfl
  · intro hlen
    rw [compile, if_neg (by simp), processFields_cons, processField_arrPrim_def,
      if_pos hlen]
    rfl
  · intro elemLayout elemUniform hwl hne hlen
    have hwf : wfLayout [(nm, .arr elemLayout elemUniform len)] = true := by
      simp [wfLayout, wfField, hwl, hlen, List.isEmpty_iff, hne]
    obtain ⟨rc, hc, _, _⟩ := compile_ok _ false hwf (List.cons_ne_nil _ _)
    exact ⟨rc, hc⟩

theorem flatMap_range_length {α : Type} (f : Nat → List α) (L E : Nat)
    (hE : ∀ k, (f k).length = E) :
    ((List.range L).flatMap f).length = L * E := by
  induction L with
  | zero => simp
  | succ k ih =>
    rw [List.range_succ, List.flatMap_append, List.length_append, ih]
    have hs : ([k].flatMap f) = f k := by simp
    rw [hs, hE, Nat.succ_mul]

theorem flatMap_range_getElem {α : Type} (f : Nat → List α) (L E i j : Nat)
    (hE : ∀ k, (f k).length = E) (hi : i < L) (hj : j < E) :
    ((List.range L).flatMap f)[i * E + j]? = (f i)[j]? := by
  induction L with
  | zero => omega
  | succ k ih =>
    rw [List.range_succ, List.flatMap_append]
    have hs : ([k].flatMap f) = f k := by simp
    rw [hs]
    have hlen : ((List.range k).flatMap f).length = k * E := flatMap_range_length f k E hE
    rcases Nat.lt_or_ge i k with hik | hik
    · have hidx : i * E + j < k * E := by
        have h1 : i * E + j < (i + 1) * E := by rw [Nat.succ_mul]; omega
        have h2 : (i + 1) * E ≤ k * E := Nat.mul_le_mul_right E hik
        omega
      rw [List.getElem?_append, if_pos (by rw [hlen]; exact hidx)]
      exact ih hik
    · have hie : i = k := by omega
      subst hie
      rw [List.getElem?_append_right (by rw [hlen]; exact Nat.le_add_right _ _), hlen]
      congr 1
      omega

/-- C1: for a compiled array of structured elements (inline nested
specification: `elemUniform = false`; pre-compiled record: the flag it
was built with), the element stride is `max(elementSize, 16)` rounded
up to the element's own maximum member alignment `ea`; the `k`-th leaf
of element `i` sits at `alignUp n ea + i·stride + (element-local
offset)`, so the array's start offset is the running offset padded to
`ea` (not forced to 16), and corresponding leaves of consecutive
elements differ by exactly the stride, which is `≥ 16` and a multiple
of `ea`. -/
theorem C1_array_stride (name : String) (elemLayout : List (String × FieldSpec))
    (elemUniform : Bool) (len n : Int) (path : List String)
    (hwf : wfLayout elemLayout = true) (hne : elemLayout ≠ []) (hlen : 0 < len)
    (hn : 0 ≤ n) (hn4 : (4:Int) ∣ n) :
    ∃ (er : Record) (r : ProcResult) (es ea stride : Int),
      compile elemLayout elemUniform = .ok er ∧
      er.totalSize = .val es ∧
      ea = maxFieldAlignment er.fields ∧
      stride = alignUp (max es 16) ea ∧
      16 ≤ stride ∧ ea ∣ stride ∧
      processArray name elemLayout elemUniform len (.val n) path = .ok r ∧
      r.alignment = .val ea ∧
      r.fields.length = len.toNat * er.fields.length ∧
      (∀ (i j : Nat) (ej : FieldInfo) (oj : Int), i < len.toNat →
        j < er.fields.length →
        er.fields[j]? = some ej → ej.offset = .val oj →
        (r.fields[i * er.fields.length + j]?).map (fun f => f.offset) =
          some (.val (alignUp n ea + (i:Int) * stride + oj))) ∧
      (∀ (i j : Nat) (fi fj : FieldInfo), i + 1 < len.toNat →
        j < er.fields.length →
        r.fields[i * er.fields.length + j]? = some fi →
        r.fields[(i + 1) * er.fields.length + j]? = some fj →
        ∃ oi oj : Int, fi.offset = .val oi ∧ fj.offset = .val oj ∧
          oj - oi = stride) := by
  obtain ⟨er, hcomp, hub, hOK⟩ := compile_ok elemLayout elemUniform hwf hne
  obtain ⟨T, htot, hT0, hT4, hmaxdvd, huni, hfne, hFOK⟩ := hOK
  set A := maxFieldAlignment er.fields with hAdef
  have hA : A = 4 ∨ A = 8 ∨ A = 16 := FieldsOK_alignSet hFOK hfne
  have hA0 : 0 < A := alignSet_pos hA
  have hml : maxList (er.fields.map fun f => JSNum.val f.alignment) = .val A :=
    maxList_alignments er.fields hfne fun f hf => alignSet_pos (LeafOK_alignSet (hFOK.1 f hf))
  have hmx0 : (0:Int) ≤ max T 16 := by omega
  set base := alignUp n A with hbdef
  set stride := alignUp (max T 16) A with hsdef
  have hstride_ge : max T 16 ≤ stride := le_alignUp (max T 16) A hmx0 hA0
  have hstride16 : 16 ≤ stride := le_trans (le_max_right T 16) hstride_ge
  have hstride_dvd : A ∣ stride := alignUp_dvd (max T 16) A hmx0 hA0
  have hL : 0 < len.toNat := by omega
  set updf : Nat → FieldInfo → FieldInfo := fun i ef =>
    { ef with
        name := name ++ "." ++ toString i ++ "." ++ ef.name,
        offset := add (.val (base + (i:Int) * stride)) ef.offset,
        path := path ++ [toString i, ef.name],
        isArray := true,
        arrayLength := some len,
        arrayStride := some (.val stride) } with hupdf
  have heval : arrayTail name er len (.val n) path =
      { fields := (List.range len.toNat).flatMap fun i => er.fields.map (updf i),
        alignment := .val A,
        nextOffset := .val (base + stride * len) } := by
    simp only [arrayTail, htot, hml, jsPad_val_val n A (ne_of_gt hA0), jmax_val_val,
      divCeil_val_val _ _ (ne_of_gt hA0), mul_val_val, add_val_val,
      ceilDiv_mul (max T 16) A hmx0 hA0]
    rfl
  have hproc : processArray name elemLayout elemUniform len (.val n) path =
      .ok { fields := (List.range len.toNat).flatMap fun i => er.fields.map (updf i),
            alignment := .val A,
            nextOffset := .val (base + stride * len) } := by
    rw [processArray, if_neg (by omega), hcomp, ← heval]
    rfl
  have hE : ∀ k, (er.fields.map (updf k)).length = er.fields.length := fun k =>
    List.length_map _ _
  have hformula : ∀ (i j : Nat) (ej : FieldInfo) (oj : Int), i < len.toNat →
      j < er.fields.length →
      er.fields[j]? = some ej → ej.offset = .val oj →
      ((((List.range len.toNat).flatMap fun i => er.fields.map (updf i))[i *
          er.fields.length + j]?).map fun f => f.offset) =
        some (.val (base + (i:Int) * stride + oj)) := by
    intro i j ej oj hi hj hej hoj
    rw [flatMap_range_getElem _ len.toNat er.fields.length i j hE hi hj,
      List.getElem?_map, hej]
    simp only [Option.map_some']
    rw [hoj, add_val_val]
  refine ⟨er, _, T, A, stride, hcomp, htot, rfl, hsdef, hstride16, hstride_dvd, hproc,
    rfl, ?_, hformula, ?_⟩
  · exact flatMap_range_length _ len.toNat er.fields.length hE
  · intro i j fi fj hi hj hgi hgj
    have hj' : j < er.fields.length := hj
    have hej : er.fields[j]? = some (er.fields[j]) := List.getElem?_eq_getElem hj'
    have hmem : er.fields[j] ∈ er.fields := List.getElem_mem hj'
    obtain ⟨e1, e2, e3, e4, e5, e6⟩ := hFOK.1 _ hmem
    have hf1 := hformula i j _ (offInt (er.fields[j])) (by omega) hj hej e2
    have hf2 := hformula (i+1) j _ (offInt (er.fields[j])) hi hj hej e2
    rw [hgi] at hf1
    rw [hgj] at hf2
    simp only [Option.map_some', Option.some_inj] at hf1 hf2
    refine ⟨base + (i:Int) * stride + offInt (er.fields[j]),
      base + ((i+1 : Nat):Int) * stride + offInt (er.fields[j]), hf1, hf2, ?_⟩
    have hc : (((i+1 : Nat)):Int) = (i:Int) + 1 := by push_cast; ring
    rw [hc]
    have hexp : ((i:Int) + 1) * stride = (i:Int) * stride + stride := by ring
    omega

theorem C1_witness :
    (wfLayout [("value", FieldSpec.prim "vec3f")] = true ∧ (0:Int) < 3 ∧
      (0:Int) ≤ 0 ∧ (4:Int) ∣ 0) ∧
    ∃ (er : Record) (r : ProcResult) (es ea stride : Int),
      compile [("value", .prim "vec3f")] false = .ok er ∧
      er.totalSize = .val es ∧
      ea = maxFieldAlignment er.fields ∧
      stride = alignUp (max es 16) ea ∧
      16 ≤ stride ∧ ea ∣ stride ∧
      processArray "data" [("value", .prim "vec3f")] false 3 (.val 0) ["data"] = .ok r ∧
      r.alignment = .val ea ∧
      r.fields.length = (3:Int).toNat * er.fields.length ∧
      (∀ (i j : Nat) (ej : FieldInfo) (oj : Int), i < (3:Int).toNat →
        j < er.fields.length →
        er.fields[j]? = some ej → ej.offset = .val oj →
        (r.fields[i * er.fields.length + j]?).map (fun f => f.offset) =
          some (.val (alignUp 0 ea + (i:Int) * stride + oj))) ∧
      (∀ (i j : Nat) (fi fj : FieldInfo), i + 1 < (3:Int).toNat →
        j < er.fields.length →
        r.fields[i * er.fields.length + j]? = some fi →
        r.fields[(i + 1) * er.fields.length + j]? = some fj →
        ∃ oi oj : Int, fi.offset = .val oi ∧ fj.offset = .val oj ∧
          oj - oi = stride) :=
  ⟨⟨by decide, by decide, by decide, by decide⟩,
    C1_array_stride "data" [("value", .prim "vec3f")] false 3 0 ["data"]
      (by decide) (List.cons_ne_nil _ _) (by decide) (by decide) (by decide)⟩

theorem C4_witness :
    ((0:Int) < 1 ∧ compile [("a", .arrPrim "f32" 1)] false =
      .error (.invalidElementSpec "a")) ∧
    (wfLayout [("x", FieldSpec.prim "f32")] = true ∧
      ∃ rc, compile [("a", .arr [("x", .prim "f32")] false 1)] false = .ok rc) := by
  have h := C4_amended "a" "f32" 1
  exact ⟨⟨by decide, h.1 (by decide)⟩,
    ⟨by decide, h.2.2 [("x", .prim "f32")] false (by decide)
      (List.cons_ne_nil _ _) (by decide)⟩⟩

/-! ### The backing store and the typed accessors

The buffer is modelled at 32-bit word granularity: every field offset,
field size and the total size of a well-formed record is a multiple of
4 (claim C10), and all reads and writes go through the 4-byte-element
`DataView`/typed-array operations.  A word remembers the numeric
interpretation that wrote it; the all-zero bit pattern (fresh buffer,
`reset`, or a written zero) is shared by all interpretations and gets
its own constructor so that zero words read as zero everywhere.
Cross-reading a float-written word through an integer view (or vice
versa) depends on the IEEE bit pattern, which the model does not
represent; no claim exercises such reads and they return a fixed
default.

The development is parametric in `r32 : ℚ → ℚ`, the IEEE binary32
rounding applied by `Float32Array`/`setFloat32` stores; claim C3's
float round-trip produces `r32 v` for every such function. -/

/-- One 32-bit word of the backing buffer. -/
inductive Word where
  | zero
  | fNaN
  | fVal (x : ℚ)
  | iVal (x : Int)
  | uVal (x : Nat)
deriving DecidableEq, Repr

/-- JS number truncation (`ToIntegerOrInfinity` on finite values). -/
def ratTrunc (q : ℚ) : Int := if 0 ≤ q then ⌊q⌋ else ⌈q⌉

/-- JS `ToInt32` (`none` is NaN, which converts to 0): truncate, wrap
modulo 2^32 into `[-2^31, 2^31)`. -/
def toInt32 : Option ℚ → Int
  | none => 0
  | some q =>
    let m := (ratTrunc q) % (2 ^ 32)
    if m < 2 ^ 31 then m else m - 2 ^ 32

/-- JS `ToUint32`. -/
def toUint32 : Option ℚ → Nat
  | none => 0
  | some q => ((ratTrunc q) % (2 ^ 32)).toNat

/-- Store through the float32 interpretation (`setFloat32` /
`Float32Array` element write): round, remembering a zero as the shared
zero pattern. -/
def mkFloatWord (r32 : ℚ → ℚ) : Option ℚ → Word
  | none => .fNaN
  | some q => if r32 q = 0 then .zero else .fVal (r32 q)

/-- Store through the int32 interpretation. -/
def mkIntWord (v : Option ℚ) : Word :=
  if toInt32 v = 0 then .zero else .iVal (toInt32 v)

/-- Store through the uint32 interpretation. -/
def mkUintWord (v : Option ℚ) : Word :=
  if toUint32 v = 0 then .zero else .uVal (toUint32 v)

/-- `getFloat32` (`none` is NaN).  Integer-written words depend on the
bit pattern: unreachable in the claims, modelled as NaN. -/
def readF : Word → Option ℚ
  | .zero => some 0
  | .fNaN => none
  | .fVal x => some x
  | .iVal _ => none
  | .uVal _ => none

/-- `getInt32`.  A uint-written word reinterprets exactly; float-written
words depend on the bit pattern (unreachable in the claims, modelled 0). -/
def readI : Word → Int
  | .zero => 0
  | .fNaN => 0
  | .fVal _ => 0
  | .iVal x => x
  | .uVal x => if (x:Int) < 2 ^ 31 then (x:Int) else (x:Int) - 2 ^ 32

/-- `getUint32`. -/
def readU : Word → Nat
  | .zero => 0
  | .fNaN => 0
  | .fVal _ => 0
  | .iVal x => (x % (2 ^ 32)).toNat
  | .uVal x => x

/-- A JavaScript value given to `set` or appearing in a `setAll` tree:
a number, a plain numeric array, a typed array, a plain array of
non-numeric elements (array-of-structs updates), or a plain object. -/
inductive JSVal where
  | num (x : ℚ)
  | numArr (xs : List ℚ)
  | typedArr (xs : List ℚ)
  | objArr (xs : List JSVal)
  | obj (entries : List (String × JSVal))

/-- The accessor-time errors (`throw new Error(...)` in `set`/`get`,
identified by their messages). -/
inductive AccessError where
  | unknownField (key : String)
  | expectedScalar (key : String)
  | expectedVector (key : String)
  | componentMismatch (expected got : Nat)
  | unableToGet (key : String)
deriving DecidableEq, Repr

/-- A constructed `WebGPUStruct` instance: the compiled record plus its
backing buffer of 32-bit words. -/
structure WStruct where
  record : Record
  buf : List Word
deriving DecidableEq, Repr

/-- Construction-time runtime errors: the engine's own layout errors,
or the `RangeError` the runtime throws from `new ArrayBuffer` /
typed-view creation on a negative, infinite, or non-multiple-of-4 byte
length. -/
inductive CtorError where
  | structError (e : StructError)
  | rangeError
deriving DecidableEq, Repr

/-- The full constructor: compile, then allocate the buffer
(`new ArrayBuffer(totalSize)`, NaN converts to 0 bytes) and the three
4-byte-element views (which throw on a byte length that is not a
multiple of 4). -/
def mkStruct (layout : List (String × FieldSpec)) (u : Bool) :
    Except CtorError WStruct :=
  match compile layout u with
  | .error e => .error (.structError e)
  | .ok rc =>
    match rc.totalSize with
    | .val t =>
      if t < 0 then .error .rangeError
      else if t % 4 ≠ 0 then .error .rangeError
      else .ok { record := rc, buf := List.replicate (t / 4).toNat .zero }
    | .nan => .ok { record := rc, buf := [] }
    | .inf => .error .rangeError
    | .ninf => .error .rangeError

/-- `field.type.includes('f')`. -/
def typeIsFloat (t : String) : Bool := t.data.contains 'f'

/-- `field.type.includes('i') && !field.type.includes('u')`. -/
def typeIsInt (t : String) : Bool := t.data.contains 'i' && !(t.data.contains 'u')

/-- `field.type.includes('u')`. -/
def typeIsUint (t : String) : Bool := t.data.contains 'u'

/-- Byte offsets converted to word indices (`field.offset / 4`,
truncating).  Non-finite offsets cannot occur for well-formed records;
the fallback keeps the function total. -/
def wordIndex : JSNum → Nat
  | .val o => (o / 4).toNat
  | _ => 0

/-- Consecutive-element bulk write of a typed view
(`view.set(values, byteOffset)`); out-of-range writes cannot occur for
compiled well-formed records. -/
def writeWords (buf : List Word) (i : Nat) (ws : List Word) : List Word :=
  match ws with
  | [] => buf
  | w :: rest => writeWords (buf.set i w) (i + 1) rest

/-- `ToNumber` of a tree value as applied by a typed-view element
write.  Aggregate values coerce through `ToPrimitive`; for the plain
objects the trees contain this is NaN (string-coercion corner cases of
nested arrays are outside the model; no claim touches them). -/
def jsToNumber : JSVal → Option ℚ
  | .num x => some x
  | _ => none

/-- JS `ToLength` for array-like coercion. -/
def toLengthNat (q : ℚ) : Nat := if q ≤ 0 then 0 else ⌊q⌋.toNat

/-- Last-wins lookup in an object's entry list (later keys of an object
literal overwrite earlier ones). -/
def entryLookup (es : List (String × JSVal)) (key : String) : Option JSVal :=
  ((es.filter fun e => e.1 == key).getLast?).map fun e => e.2

/-- `Array.isArray(value) ? value : Array.from(value)` followed by the
per-element `ToNumber` of the typed-view write. -/
def arrayFromElems : JSVal → List (Option ℚ)
  | .num _ => []
  | .numArr xs => xs.map some
  | .typedArr xs => xs.map some
  | .objArr xs => xs.map jsToNumber
  | .obj es =>
    match entryLookup es "length" with
    | some (.num q) => List.replicate (toLengthNat q) none
    | _ => []

/-- The write part of `set` once the descriptor is found: scalar values
through the `DataView`, vectors/matrices bulk-written through the
matching typed view at element index `offset / 4`. -/
def setFieldWrite (r32 : ℚ → ℚ) (key : String) (field : FieldInfo) (value : JSVal)
    (buf : List Word) : Except AccessError (List Word) :=
  let isFloat := typeIsFloat field.type
  let isInt := typeIsInt field.type
  let isUint := typeIsUint field.type
  if field.componentCount = 1 then
    match value with
    | .num x =>
      let idx := wordIndex field.offset
      if isFloat then .ok (buf.set idx (mkFloatWord r32 (some x)))
      else if isInt then .ok (buf.set idx (mkIntWord (some x)))
      else if isUint then .ok (buf.set idx (mkUintWord (some x)))
      else .ok buf
    | _ => .error (.expectedScalar key)
  else
    match value with
    | .num _ => .error (.expectedVector key)
    | v =>
      let values := arrayFromElems v
      if values.length ≠ field.componentCount then
        .error (.componentMismatch field.componentCount values.length)
      else
        let idx := wordIndex field.offset
        if isFloat then .ok (writeWords buf idx (values.map (mkFloatWord r32)))
        else if isInt then .ok (writeWords buf idx (values.map mkIntWord))
        else if isUint then .ok (writeWords buf idx (values.map mkUintWord))
        else .ok buf

/-- `set(path, value)`: resolve the descriptor through the field index,
then write; returns the updated instance (the source returns `this`). -/
def setField (r32 : ℚ → ℚ) (s : WStruct) (path : List String) (value : JSVal) :
    Except AccessError WStruct :=
  let key := joinPath path
  match fieldLookup s.record.fields key with
  | none => .error (.unknownField key)
  | some field =>
    (setFieldWrite r32 key field value s.buf).map fun b => { s with buf := b }

/-- The result of `get`: a scalar number (`none` = NaN) or a freshly
copied numeric sequence. -/
inductive GetResult where
  | scalar (x : Option ℚ)
  | vec (xs : List (Option ℚ))
deriving DecidableEq, Repr

/-- Read the word at index `i` (out-of-range reads cannot occur for
compiled well-formed records). -/
def getWord (s : WStruct) (i : Nat) : Word := s.buf.getD i .zero

/-- `get(path)`: scalars through the `DataView`, vectors/matrices as a
copied-out sequence read through the matching typed view; the trailing
`Unable to get value` throw is the fall-through when no numeric
interpretation matches. -/
def getField (s : WStruct) (path : List String) : Except AccessError GetResult :=
  let key := joinPath path
  match fieldLookup s.record.fields key with
  | none => .error (.unknownField key)
  | some field =>
    let isFloat := typeIsFloat field.type
    let isInt := typeIsInt field.type
    let isUint := typeIsUint field.type
    let idx := wordIndex field.offset
    if field.componentCount = 1 then
      if isFloat then .ok (.scalar (readF (getWord s idx)))
      else if isInt then .ok (.scalar (some ((readI (getWord s idx) : Int) : ℚ)))
      else if isUint then .ok (.scalar (some ((readU (getWord s idx) : Nat) : ℚ)))
      else .error (.unableToGet key)
    else
      if isFloat then
        .ok (.vec ((List.range field.componentCount).map fun j =>
          readF (getWord s (idx + j))))
      else if isInt then
        .ok (.vec ((List.range field.componentCount).map fun j =>
          some ((readI (getWord s (idx + j)) : Int) : ℚ)))
      else if isUint then
        .ok (.vec ((List.range field.componentCount).map fun j =>
          some ((readU (getWord s (idx + j)) : Nat) : ℚ)))
      else .error (.unableToGet key)

/-- `reset()`: `float32View.fill(0)` — every word of the buffer is
overwritten with a float32 zero. -/
def resetStruct (r32 : ℚ → ℚ) (s : WStruct) : WStruct :=
  { s with buf := s.buf.map fun _ => mkFloatWord r32 (some 0) }

/-- The `/^\d+$/` test for array-index path segments. -/
def isDigitKey (key : String) : Bool :=
  !key.data.isEmpty && key.data.all Char.isDigit

mutual

/-- `_setAllRecursive(values, path)`: iterate `Object.entries(values)`.
Entries of a plain object are its key/value pairs; entries of a plain
array (numeric-first arrays excluded earlier by the caller's leaf test,
so only empty numeric arrays and object arrays recurse here) are its
index/value pairs; entries of a number are empty. -/
def setAllVal (r32 : ℚ → ℚ) (s : WStruct) (value : JSVal) (path : List String) :
    Except AccessError WStruct :=
  match value with
  | .obj es => setAllEntries r32 s es path
  | .objArr xs => setAllIdx r32 s xs 0 path
  | .numArr xs => setAllNumIdx r32 s xs 0 path
  | .typedArr xs => setAllNumIdx r32 s xs 0 path
  | .num _ => .ok s
termination_by (sizeOf value, 0)

/-- The entry loop over a plain object's key/value pairs. -/
def setAllEntries (r32 : ℚ → ℚ) (s : WStruct) (es : List (String × JSVal))
    (path : List String) : Except AccessError WStruct :=
  match es with
  | [] => .ok s
  | (k, v) :: rest =>
    match setAllStep r32 s k v path with
    | .error e => .error e
    | .ok s' => setAllEntries r32 s' rest path
termination_by (sizeOf es, 0)

/-- The entry loop over an array's index/value pairs. -/
def setAllIdx (r32 : ℚ → ℚ) (s : WStruct) (xs : List JSVal) (i : Nat)
    (path : List String) : Except AccessError WStruct :=
  match xs with
  | [] => .ok s
  | v :: rest =>
    match setAllStep r32 s (toString i) v path with
    | .error e => .error e
    | .ok s' => setAllIdx r32 s' rest (i + 1) path
termination_by (sizeOf xs, 0)

/-- The entry loop over a numeric array's index/value pairs (reachable
only when `setAll` is called on a numeric array directly). -/
def setAllNumIdx (r32 : ℚ → ℚ) (s : WStruct) (xs : List ℚ) (i : Nat)
    (path : List String) : Except AccessError WStruct :=
  match xs with
  | [] => .ok s
  | x :: rest =>
    match setAllStep r32 s (toString i) (.num x) path with
    | .error e => .error e
    | .ok s' => setAllNumIdx r32 s' rest (i + 1) path
termination_by (sizeOf xs, 0)
decreasing_by
  all_goals simp_wf
  all_goals apply Prod.Lex.left
  all_goals first
    | omega
    | (cases rest <;> simp <;> omega)

/-- One entry of `_setAllRecursive`: a number, a typed array, or a
plain array with a numeric first element is a leaf and goes to `set`;
every other object goes to the object branch. -/
def setAllStep (r32 : ℚ → ℚ) (s : WStruct) (key : String) (v : JSVal)
    (path : List String) : Except AccessError WStruct :=
  match v with
  | .num x => setField r32 s (path ++ [key]) (.num x)
  | .typedArr xs => setField r32 s (path ++ [key]) (.typedArr xs)
  | .numArr (x :: xs) => setField r32 s (path ++ [key]) (.numArr (x :: xs))
  | .numArr [] => setAllObj r32 s key (.numArr []) path
  | .obj es => setAllObj r32 s key (.obj es) path
  | .objArr xs => setAllObj r32 s key (.objArr xs) path
termination_by (sizeOf v, 2)

/-- The object branch of one `_setAllRecursive` entry: digit keys
recurse (array-index pattern), a known field path goes to `set`, and
anything else recurses deeper. -/
def setAllObj (r32 : ℚ → ℚ) (s : WStruct) (key : String) (v : JSVal)
    (path : List String) : Except AccessError WStruct :=
  let currentPath := path ++ [key]
  if isDigitKey key then setAllVal r32 s v currentPath
  else if (fieldLookup s.record.fields (joinPath currentPath)).isSome then
    setField r32 s currentPath v
  else setAllVal r32 s v currentPath
termination_by (sizeOf v, 1)

end

/-- `setAll(values)`. -/
def setAll (r32 : ℚ → ℚ) (s : WStruct) (values : JSVal) :
    Except AccessError WStruct :=
  setAllVal r32 s values []

mutual

/-- The traversal-ordered list of leaves `_setAllRecursive` passes to
`set`, with their accumulated paths: the specification-side mirror of
the recursion used to state claim C7. -/
def leavesVal (fields : List FieldInfo) (value : JSVal) (path : List String) :
    List (List String × JSVal) :=
  match value with
  | .obj es => leavesEntries fields es path
  | .objArr xs => leavesIdx fields xs 0 path
  | .numArr xs => leavesNumIdx fields xs 0 path
  | .typedArr xs => leavesNumIdx fields xs 0 path
  | .num _ => []
termination_by (sizeOf value, 0)

def leavesEntries (fields : List FieldInfo) (es : List (String × JSVal))
    (path : List String) : List (List String × JSVal) :=
  match es with
  | [] => []
  | (k, v) :: rest => leavesStep fields k v path ++ leavesEntries fields rest path
termination_by (sizeOf es, 0)

def leavesIdx (fields : List FieldInfo) (xs : List JSVal) (i : Nat)
    (path : List String) : List (List String × JSVal) :=
  match xs with
  | [] => []
  | v :: rest => leavesStep fields (toString i) v path ++ leavesIdx fields rest (i + 1) path
termination_by (sizeOf xs, 0)

def leavesNumIdx (fields : List FieldInfo) (xs : List ℚ) (i : Nat)
    (path : List String) : List (List String × JSVal) :=
  match xs with
  | [] => []
  | x :: rest =>
    leavesStep fields (toString i) (.num x) path ++ leavesNumIdx fields rest (i + 1) path
termination_by (sizeOf xs, 0)
decreasing_by
  all_goals simp_wf
  all_goals apply Prod.Lex.left
  all_goals first
    | omega
    | (cases rest <;> simp <;> omega)

def leavesStep (fields : List FieldInfo) (key : String) (v : JSVal)
    (path : List String) : List (List String × JSVal) :=
  match v with
  | .num x => [(path ++ [key], JSVal.num x)]
  | .typedArr xs => [(path ++ [key], JSVal.typedArr xs)]
  | .numArr (x :: xs) => [(path ++ [key], JSVal.numArr (x :: xs))]
  | .numArr [] => leavesObj fields key (.numArr []) path
  | .obj es => leavesObj fields key (.obj es) path
  | .objArr xs => leavesObj fields key (.objArr xs) path
termination_by (sizeOf v, 2)

def leavesObj (fields : List FieldInfo) (key : String) (v : JSVal)
    (path : List String) : List (List String × JSVal) :=
  let currentPath := path ++ [key]
  if isDigitKey key then leavesVal fields v currentPath
  else if (fieldLookup fields (joinPath currentPath)).isSome then [(currentPath, v)]
  else leavesVal fields v currentPath
termination_by (sizeOf v, 1)

end

/-! ### Buffer and accessor lemmas -/

theorem getLast?_mem {α : Type} {l : List α} {a : α} (h : l.getLast? = some a) :
    a ∈ l := by
  obtain ⟨hne, heq⟩ := List.mem_getLast?_eq_getLast (Option.mem_def.mpr h)
  subst heq
  exact List.getLast_mem hne

theorem fieldLookup_mem {fields : List FieldInfo} {key : String} {f : FieldInfo}
    (h : fieldLookup fields key = some f) : f ∈ fields := by
  unfold fieldLookup at h
  exact List.mem_of_mem_filter (getLast?_mem h)

theorem fieldLookup_key {fields : List FieldInfo} {key : String} {f : FieldInfo}
    (h : fieldLookup fields key = some f) : joinPath f.path = key := by
  unfold fieldLookup at h
  have := List.of_mem_filter (getLast?_mem h)
  simpa using this

theorem writeWords_length (ws : List Word) (buf : List Word) (i : Nat) :
    (writeWords buf i ws).length = buf.length := by
  induction ws generalizing buf i with
  | nil => rfl
  | cons w rest ih => rw [writeWords, ih, List.length_set]

theorem writeWords_getD_lt (ws : List Word) (buf : List Word) (i k : Nat) (hk : k < i) :
    (writeWords buf i ws).getD k .zero = buf.getD k .zero := by
  induction ws generalizing buf i with
  | nil => rfl
  | cons w rest ih =>
    rw [writeWords, ih (buf.set i w) (i+1) (by omega)]
    simp [List.getD_eq_getElem?_getD, List.getElem?_set_ne (by omega : i ≠ k)]

theorem getD_set_self (buf : List Word) (i : Nat) (w : Word) (h : i < buf.length) :
    (buf.set i w).getD i .zero = w := by
  simp [List.getD_eq_getElem?_getD, List.getElem?_set, h]

theorem writeWords_getD_in (ws : List Word) (buf : List Word) (i j : Nat)
    (hj : j < ws.length) (hle : i + ws.length ≤ buf.length) :
    (writeWords buf i ws).getD (i + j) .zero = ws.getD j .zero := by
  induction ws generalizing buf i j with
  | nil => simp at hj
  | cons w rest ih =>
    rw [writeWords]
    cases j with
    | zero =>
      rw [writeWords_getD_lt rest _ (i+1) (i+0) (by omega)]
      simp only [Nat.add_zero]
      rw [getD_set_self buf i w (by simp at hle; omega)]
      rfl
    | succ j' =>
      have : i + (j' + 1) = (i + 1) + j' := by omega
      rw [this, ih (buf.set i w) (i+1) j' (by simp at hj; omega)
        (by rw [List.length_set]; simp at hle; omega)]
      rfl

theorem readF_mkFloatWord (r32 : ℚ → ℚ) (x : ℚ) :
    readF (mkFloatWord r32 (some x)) = some (r32 x) := by
  unfold mkFloatWord
  by_cases h : r32 x = 0
  · simp [h, readF]
  · simp [h, readF]

theorem ratTrunc_int (z : Int) : ratTrunc ((z:ℚ)) = z := by
  unfold ratTrunc
  by_cases hz : (0:ℚ) ≤ (z:ℚ) <;> simp [hz]

theorem toInt32_int_range (z : Int) (h1 : -2^31 ≤ z) (h2 : z < 2^31) :
    toInt32 (some ((z:ℚ))) = z := by
  simp only [toInt32, ratTrunc_int]
  rcases le_or_lt 0 z with hz | hz
  · have hm : z % (2^32) = z := Int.emod_eq_of_lt hz (by omega)
    rw [hm, if_pos (by omega)]
  · have hm : z % (2^32) = z + 2^32 := by omega
    rw [hm, if_neg (by omega)]
    omega

theorem readI_mkIntWord_range (z : Int) (h1 : -2^31 ≤ z) (h2 : z < 2^31) :
    readI (mkIntWord (some ((z:ℚ)))) = z := by
  unfold mkIntWord
  rw [toInt32_int_range z h1 h2]
  by_cases h : z = 0
  · simp [h, readI]
  · simp [h, readI]

theorem toUint32_nat_range (m : Nat) (h : m < 2^32) :
    toUint32 (some ((m:ℚ))) = m := by
  simp only [toUint32]
  rw [show ((m:ℚ)) = (((m:Int)):ℚ) by simp, ratTrunc_int]
  have hm : (m:Int) % (2^32) = m := Int.emod_eq_of_lt (by positivity) (by exact_mod_cast h)
  rw [hm]
  simp

theorem readU_mkUintWord_range (m : Nat) (h : m < 2^32) :
    readU (mkUintWord (some ((m:ℚ)))) = m := by
  unfold mkUintWord
  rw [toUint32_nat_range m h]
  by_cases hm : m = 0
  · simp [hm, readU]
  · simp [hm, readU]

/-- Exactly one of the three numeric-interpretation flags holds for
every tag of the type table. -/
theorem typeFlags {tag : String} {s a : Int} {c : Nat}
    (h : TYPES tag = some (s, a, c)) :
    (typeIsFloat tag = true ∧ typeIsInt tag = false ∧ typeIsUint tag = false) ∨
    (typeIsFloat tag = false ∧ typeIsInt tag = true ∧ typeIsUint tag = false) ∨
    (typeIsFloat tag = false ∧ typeIsInt tag = false ∧ typeIsUint tag = true) := by
  have hm := lookup_mem h
  have hall : ∀ e ∈ typeTable,
      (typeIsFloat e.1 = true ∧ typeIsInt e.1 = false ∧ typeIsUint e.1 = false) ∨
      (typeIsFloat e.1 = false ∧ typeIsInt e.1 = true ∧ typeIsUint e.1 = false) ∨
      (typeIsFloat e.1 = false ∧ typeIsInt e.1 = false ∧ typeIsUint e.1 = true) := by
    decide
  exact hall _ hm

/-- Reading back a freshly bulk-written vector, pointwise. -/
theorem vec_read_eq (mkW : Option ℚ → Word) (rd : Word → Option ℚ) (g : ℚ → Option ℚ)
    (xs : List ℚ) (buf : List Word) (idx cc : Nat)
    (hcc : xs.length = cc) (hle : idx + cc ≤ buf.length)
    (hrt : ∀ x ∈ xs, rd (mkW (some x)) = g x) :
    (List.range cc).map
        (fun j => rd ((writeWords buf idx ((xs.map some).map mkW)).getD (idx + j) .zero)) =
      xs.map g := by
  have hws : ((xs.map some).map mkW).length = cc := by simp [hcc]
  apply List.ext_getElem?
  intro j
  rcases Nat.lt_or_ge j cc with hj | hj
  · have hj' : j < xs.length := by omega
    rw [List.getElem?_map, List.getElem?_range hj, List.getElem?_map,
      List.getElem?_eq_getElem hj']
    simp only [Option.map_some']
    congr 1
    rw [writeWords_getD_in _ _ _ _ (by omega) (by omega)]
    have : ((xs.map some).map mkW).getD j .zero = mkW (some (xs[j])) := by
      rw [List.getD_eq_getElem?_getD, List.getElem?_map, List.getElem?_map,
        List.getElem?_eq_getElem hj']
      simp
    rw [this]
    exact hrt _ (List.getElem_mem hj')
  · rw [List.getElem?_map, List.getElem?_map]
    rw [List.getElem?_eq_none (by simpa using hj), List.getElem?_eq_none (by omega)]
    rfl

/-- Evaluation of `set`'s write on a scalar number value. -/
theorem setFieldWrite_num (r32 : ℚ → ℚ) (key : String) (f : FieldInfo) (x : ℚ)
    (buf : List Word) :
    setFieldWrite r32 key f (.num x) buf =
      (if f.componentCount = 1 then
        (if typeIsFloat f.type then
          .ok (buf.set (wordIndex f.offset) (mkFloatWord r32 (some x)))
         else if typeIsInt f.type then
          .ok (buf.set (wordIndex f.offset) (mkIntWord (some x)))
         else if typeIsUint f.type then
          .ok (buf.set (wordIndex f.offset) (mkUintWord (some x)))
         else .ok buf)
       else .error (.expectedVector key)) := rfl

/-- Evaluation of `set`'s write on a plain numeric array value. -/
theorem setFieldWrite_numArr (r32 : ℚ → ℚ) (key : String) (f : FieldInfo)
    (xs : List ℚ) (buf : List Word) :
    setFieldWrite r32 key f (.numArr xs) buf =
      (if f.componentCount = 1 then .error (.expectedScalar key)
       else if (xs.map some).length ≠ f.componentCount then
        .error (.componentMismatch f.componentCount (xs.map some).length)
       else if typeIsFloat f.type then
        .ok (writeWords buf (wordIndex f.offset) ((xs.map some).map (mkFloatWord r32)))
       else if typeIsInt f.type then
        .ok (writeWords buf (wordIndex f.offset) ((xs.map some).map mkIntWord))
       else if typeIsUint f.type then
        .ok (writeWords buf (wordIndex f.offset) ((xs.map some).map mkUintWord))
       else .ok buf) := rfl

/-- Evaluation of `set`'s write on a typed-array value. -/
theorem setFieldWrite_typedArr (r32 : ℚ → ℚ) (key : String) (f : FieldInfo)
    (xs : List ℚ) (buf : List Word) :
    setFieldWrite r32 key f (.typedArr xs) buf =
      (if f.componentCount = 1 then .error (.expectedScalar key)
       else if (xs.map some).length ≠ f.componentCount then
        .error (.componentMismatch f.componentCount (xs.map some).length)
       else if typeIsFloat f.type then
        .ok (writeWords buf (wordIndex f.offset) ((xs.map some).map (mkFloatWord r32)))
       else if typeIsInt f.type then
        .ok (writeWords buf (wordIndex f.offset) ((xs.map some).map mkIntWord))
       else if typeIsUint f.type then
        .ok (writeWords buf (wordIndex f.offset) ((xs.map some).map mkUintWord))
       else .ok buf) := rfl

/-- Evaluation of the vector/matrix write of `set` on a numeric
sequence of the right arity. -/
theorem setFieldWrite_vec (r32 : ℚ → ℚ) (key : String) (f : FieldInfo) (v : JSVal)
    (xs : List ℚ) (buf : List Word)
    (hcc1 : ¬ f.componentCount = 1)
    (hv : v = .numArr xs ∨ v = .typedArr xs)
    (hlen : xs.length = f.componentCount) :
    setFieldWrite r32 key f v buf =
      (if typeIsFloat f.type then
        .ok (writeWords buf (wordIndex f.offset) ((xs.map some).map (mkFloatWord r32)))
       else if typeIsInt f.type then
        .ok (writeWords buf (wordIndex f.offset) ((xs.map some).map mkIntWord))
       else if typeIsUint f.type then
        .ok (writeWords buf (wordIndex f.offset) ((xs.map some).map mkUintWord))
       else .ok buf) := by
  have hne : ¬((xs.map some).length ≠ f.componentCount) := by simp [hlen]
  rcases hv with rfl | rfl
  · rw [setFieldWrite_numArr, if_neg hcc1, if_neg hne]
  · rw [setFieldWrite_typedArr, if_neg hcc1, if_neg hne]

/-- C3: writing a well-typed value to a leaf field and reading it back
returns the value: exactly for in-range integer components, and up to
the float32 rounding `r32` for float components (scalars and
vectors/matrices alike). -/
theorem C3_set_get_roundtrip (r32 : ℚ → ℚ) (layout : List (String × FieldSpec))
    (u : Bool) (rc : Record) (hwf : wfLayout layout = true) (hne : layout ≠ [])
    (hc : compile layout u = .ok rc) (s : WStruct) (hs : s.record = rc)
    (hbl : rc.totalSize = .val (4 * (s.buf.length : Int)))
    (path : List String) (f : FieldInfo)
    (hf : fieldLookup rc.fields (joinPath path) = some f) :
    (f.componentCount = 1 →
      (typeIsFloat f.type = true → ∀ x : ℚ,
        ∃ s', setField r32 s path (.num x) = .ok s' ∧
          getField s' path = .ok (.scalar (some (r32 x)))) ∧
      (typeIsInt f.type = true → ∀ z : Int, -2^31 ≤ z → z < 2^31 →
        ∃ s', setField r32 s path (.num ((z:ℚ))) = .ok s' ∧
          getField s' path = .ok (.scalar (some ((z:ℚ))))) ∧
      (typeIsUint f.type = true → ∀ m : Nat, m < 2^32 →
        ∃ s', setField r32 s path (.num ((m:ℚ))) = .ok s' ∧
          getField s' path = .ok (.scalar (some ((m:ℚ)))))) ∧
    (1 < f.componentCount → ∀ (xs : List ℚ) (v : JSVal),
      (v = .numArr xs ∨ v = .typedArr xs) → xs.length = f.componentCount →
      (typeIsFloat f.type = true →
        ∃ s', setField r32 s path v = .ok s' ∧
          getField s' path = .ok (.vec (xs.map fun x => some (r32 x)))) ∧
      (typeIsInt f.type = true →
        (∀ x ∈ xs, ∃ z : Int, x = ((z:ℚ)) ∧ -2^31 ≤ z ∧ z < 2^31) →
        ∃ s', setField r32 s path v = .ok s' ∧
          getField s' path = .ok (.vec (xs.map some))) ∧
      (typeIsUint f.type = true →
        (∀ x ∈ xs, ∃ m : Nat, x = ((m:ℚ)) ∧ m < 2^32) →
        ∃ s', setField r32 s path v = .ok s' ∧
          getField s' path = .ok (.vec (xs.map some)))) := by
  obtain ⟨rc', hc', hub, hOK⟩ := compile_ok layout u hwf hne
  rw [hc] at hc'
  injection hc' with hrc
  subst hrc
  obtain ⟨T, htot, hT0, hT4, _, _, _, hmem, _⟩ := hOK
  have hfm : f ∈ rc.fields := fieldLookup_mem hf
  obtain ⟨hty, hoffv, ho0, hoT, hoal, ho4⟩ := hmem f hfm
  obtain ⟨hsz, hs4, _, hcpos, hcs⟩ := TYPES_facts hty
  have hTlen : T = 4 * (s.buf.length : Int) := by
    rw [htot] at hbl
    injection hbl
  set idx := wordIndex f.offset with hidxdef
  have hidx : ((idx : Nat) : Int) = offInt f / 4 := by
    rw [show idx = (offInt f / 4).toNat by rw [hidxdef, hoffv]; rfl]
    exact Int.toNat_of_nonneg (by positivity)
  have ho4' : (offInt f / 4) * 4 = offInt f := Int.ediv_mul_cancel ho4
  have hbound : idx + f.componentCount ≤ s.buf.length := by
    have h1 : 4 * ((idx : Nat) : Int) + 4 * (f.componentCount : Int) ≤ T := by
      rw [hidx]
      omega
    omega
  have hlookup : fieldLookup s.record.fields (joinPath path) = some f := by
    rw [hs]; exact hf
  have hget : ∀ s' : WStruct, s'.record = s.record →
      getField s' path =
        (if f.componentCount = 1 then
           if typeIsFloat f.type then .ok (.scalar (readF (getWord s' idx)))
           else if typeIsInt f.type then
             .ok (.scalar (some ((readI (getWord s' idx) : Int) : ℚ)))
           else if typeIsUint f.type then
             .ok (.scalar (some ((readU (getWord s' idx) : Nat) : ℚ)))
           else .error (.unableToGet (joinPath path))
         else
           if typeIsFloat f.type then
             .ok (.vec ((List.range f.componentCount).map fun j =>
               readF (getWord s' (idx + j))))
           else if typeIsInt f.type then
             .ok (.vec ((List.range f.componentCount).map fun j =>
               some ((readI (getWord s' (idx + j)) : Int) : ℚ)))
           else if typeIsUint f.type then
             .ok (.vec ((List.range f.componentCount).map fun j =>
               some ((readU (getWord s' (idx + j)) : Nat) : ℚ)))
           else .error (.unableToGet (joinPath path))) := by
    intro s' hrec
    have hl : fieldLookup s'.record.fields (joinPath path) = some f := by
      rw [hrec]; exact hlookup
    simp only [getField, hl]
  constructor
  · intro hcc1
    refine ⟨?_, ?_, ?_⟩
    · intro hflt x
      refine ⟨{ s with buf := s.buf.set idx (mkFloatWord r32 (some x)) }, ?_, ?_⟩
      · simp only [setField, hlookup]
        rw [setFieldWrite_num, if_pos hcc1, if_pos hflt]
        rfl
      · rw [hget { s with buf := s.buf.set idx (mkFloatWord r32 (some x)) } rfl,
          if_pos hcc1, if_pos hflt]
        rw [show getWord { s with buf := s.buf.set idx (mkFloatWord r32 (some x)) } idx =
          mkFloatWord r32 (some x) from getD_set_self _ _ _ (by omega)]
        rw [readF_mkFloatWord]
    · intro hint z hz1 hz2
      obtain hfl | hfl | hfl := typeFlags hty
      · rw [hfl.2.1] at hint; exact absurd hint (by simp)
      · refine ⟨{ s with buf := s.buf.set idx (mkIntWord (some ((z:ℚ)))) }, ?_, ?_⟩
        · simp only [setField, hlookup]
          rw [setFieldWrite_num, if_pos hcc1,
            if_neg (show ¬(typeIsFloat f.type = true) by simp [hfl.1]), if_pos hfl.2.1]
          rfl
        · rw [hget { s with buf := s.buf.set idx (mkIntWord (some ((z:ℚ)))) } rfl,
            if_pos hcc1,
            if_neg (show ¬(typeIsFloat f.type = true) by simp [hfl.1]), if_pos hfl.2.1]
          rw [show getWord { s with buf := s.buf.set idx (mkIntWord (some ((z:ℚ)))) } idx =
            mkIntWord (some ((z:ℚ))) from getD_set_self _ _ _ (by omega)]
          rw [readI_mkIntWord_range z hz1 hz2]
      · rw [hfl.2.1] at hint; exact absurd hint (by simp)
    · intro huint m hm
      obtain hfl | hfl | hfl := typeFlags hty
      · rw [hfl.2.2] at huint; exact absurd huint (by simp)
      · rw [hfl.2.2] at huint; exact absurd huint (by simp)
      · refine ⟨{ s with buf := s.buf.set idx (mkUintWord (some ((m:ℚ)))) }, ?_, ?_⟩
        · simp only [setField, hlookup]
          rw [setFieldWrite_num, if_pos hcc1,
            if_neg (show ¬(typeIsFloat f.type = true) by simp [hfl.1]),
            if_neg (show ¬(typeIsInt f.type = true) by simp [hfl.2.1]), if_pos hfl.2.2]
          rfl
        · rw [hget { s with buf := s.buf.set idx (mkUintWord (some ((m:ℚ)))) } rfl,
            if_pos hcc1,
            if_neg (show ¬(typeIsFloat f.type = true) by simp [hfl.1]),
            if_neg (show ¬(typeIsInt f.type = true) by simp [hfl.2.1]), if_pos hfl.2.2]
          rw [show getWord { s with buf := s.buf.set idx (mkUintWord (some ((m:ℚ)))) } idx =
            mkUintWord (some ((m:ℚ))) from getD_set_self _ _ _ (by omega)]
          rw [readU_mkUintWord_range m hm]
  · intro hcc xs v hv hxs
    have hcc1 : ¬ (f.componentCount = 1) := by omega
    have hsw := setFieldWrite_vec r32 (joinPath path) f v xs s.buf hcc1 hv hxs
    refine ⟨?_, ?_, ?_⟩
    · intro hflt
      refine ⟨{ s with buf := writeWords s.buf idx ((xs.map some).map (mkFloatWord r32)) },
        ?_, ?_⟩
      · simp only [setField, hlookup]
        rw [hsw, if_pos hflt]
        rfl
      · rw [hget { s with
            buf := writeWords s.buf idx ((xs.map some).map (mkFloatWord r32)) } rfl,
          if_neg hcc1, if_pos hflt]
        congr 1
        congr 1
        exact vec_read_eq (mkFloatWord r32) readF (fun x => some (r32 x)) xs s.buf idx
          f.componentCount hxs (by omega) (fun x _ => readF_mkFloatWord r32 x)
    · intro hint hrange
      obtain hfl | hfl | hfl := typeFlags hty
      · rw [hfl.2.1] at hint; exact absurd hint (by simp)
      · refine ⟨{ s with buf := writeWords s.buf idx ((xs.map some).map mkIntWord) },
          ?_, ?_⟩
        · simp only [setField, hlookup]
          rw [hsw, if_neg (show ¬(typeIsFloat f.type = true) by simp [hfl.1]),
            if_pos hfl.2.1]
          rfl
        · rw [hget { s with buf := writeWords s.buf idx ((xs.map some).map mkIntWord) } rfl,
            if_neg hcc1,
            if_neg (show ¬(typeIsFloat f.type = true) by simp [hfl.1]), if_pos hfl.2.1]
          congr 1
          congr 1
          exact vec_read_eq mkIntWord (fun w => some (((readI w : Int) : ℚ))) some xs s.buf
            idx f.componentCount hxs (by omega)
            (fun x hx => by
              obtain ⟨z, rfl, hz1, hz2⟩ := hrange x hx
              simp only
              rw [readI_mkIntWord_range z hz1 hz2])
      · rw [hfl.2.1] at hint; exact absurd hint (by simp)
    · intro huint hrange
      obtain hfl | hfl | hfl := typeFlags hty
      · rw [hfl.2.2] at huint; exact absurd huint (by simp)
      · rw [hfl.2.2] at huint; exact absurd huint (by simp)
      · refine ⟨{ s with buf := writeWords s.buf idx ((xs.map some).map mkUintWord) },
          ?_, ?_⟩
        · simp only [setField, hlookup]
          rw [hsw, if_neg (show ¬(typeIsFloat f.type = true) by simp [hfl.1]),
            if_neg (show ¬(typeIsInt f.type = true) by simp [hfl.2.1]), if_pos hfl.2.2]
          rfl
        · rw [hget { s with buf := writeWords s.buf idx ((xs.map some).map mkUintWord) } rfl,
            if_neg hcc1,
            if_neg (show ¬(typeIsFloat f.type = true) by simp [hfl.1]),
            if_neg (show ¬(typeIsInt f.type = true) by simp [hfl.2.1]), if_pos hfl.2.2]
          congr 1
          congr 1
          exact vec_read_eq mkUintWord (fun w => some (((readU w : Nat) : ℚ))) some xs s.buf
            idx f.componentCount hxs (by omega)
            (fun x hx => by
              obtain ⟨m, rfl, hm⟩ := hrange x hx
              simp only
              rw [readU_mkUintWord_range m hm])

/-- A one-field `f32` record, as compiled, for exercising the accessors. -/
def c3rc : Record :=
  ((compile [("a", FieldSpec.prim "f32")] false).toOption).getD ⟨[], .nan, false⟩

/-- The descriptor of the single field of `c3rc`. -/
def c3f : FieldInfo :=
  (fieldLookup c3rc.fields "a").getD
    { name := "", type := "", offset := .nan, size := 0, alignment := 0,
      componentCount := 0, path := [] }

/-- Witness: the round-trip theorem applied to a concrete one-field
`f32` record, writing and reading back the scalar 2. -/
theorem C3_witness :
    ∃ s', setField id { record := c3rc, buf := [Word.zero] } ["a"] (.num 2) = .ok s' ∧
      getField s' ["a"] = .ok (.scalar (some (id 2))) :=
  ((C3_set_get_roundtrip id [("a", FieldSpec.prim "f32")] false c3rc (by decide)
      (List.cons_ne_nil _ _) rfl { record := c3rc, buf := [Word.zero] } rfl
      (by decide) ["a"] c3f (by decide)).1 (by decide)).1 (by decide) 2

/-- `get` unfolded at a resolved field descriptor. -/
theorem getField_eq_of_lookup (s : WStruct) (path : List String) (f : FieldInfo)
    (hl : fieldLookup s.record.fields (joinPath path) = some f) :
    getField s path =
      (if f.componentCount = 1 then
         if typeIsFloat f.type then
           .ok (.scalar (readF (getWord s (wordIndex f.offset))))
         else if typeIsInt f.type then
           .ok (.scalar (some ((readI (getWord s (wordIndex f.offset)) : Int) : ℚ)))
         else if typeIsUint f.type then
           .ok (.scalar (some ((readU (getWord s (wordIndex f.offset)) : Nat) : ℚ)))
         else .error (.unableToGet (joinPath path))
       else
         if typeIsFloat f.type then
           .ok (.vec ((List.range f.componentCount).map fun j =>
             readF (getWord s (wordIndex f.offset + j))))
         else if typeIsInt f.type then
           .ok (.vec ((List.range f.componentCount).map fun j =>
             some ((readI (getWord s (wordIndex f.offset + j)) : Int) : ℚ)))
         else if typeIsUint f.type then
           .ok (.vec ((List.range f.componentCount).map fun j =>
             some ((readU (getWord s (wordIndex f.offset + j)) : Nat) : ℚ)))
         else .error (.unableToGet (joinPath path))) := by
  simp only [getField, hl]

theorem range_map_congr {α : Type} (n : Nat) (f g : Nat → α)
    (h : ∀ j, j < n → f j = g j) :
    (List.range n).map f = (List.range n).map g := by
  apply List.ext_getElem
  · simp
  · intro i h1 h2
    simp only [List.getElem_map, List.getElem_range]
    exact h i (by simpa using h1)

/-- The numeric interpretation a field's reads and writes go through:
which of the three 4-byte views the tag selects. -/
def interpRead (f : FieldInfo) (w : Word) : Option ℚ :=
  if typeIsFloat f.type then readF w
  else if typeIsInt f.type then some ((readI w : Int) : ℚ)
  else if typeIsUint f.type then some ((readU w : Nat) : ℚ)
  else none

/-- C8: for a multi-component leaf of a compiled record, `get` returns a
vector (not a scalar or an error) of exactly `componentCount` elements,
each the field's numeric interpretation of the backing word at byte
offset `offset + 4*j`; the result is a fresh value fully determined by
those words alone, so it is unaffected by any later `set` (which in the
model produces a new state) and cannot alias the backing buffer. -/
theorem C8_get_vector_copy (layout : List (String × FieldSpec))
    (u : Bool) (rc : Record) (hwf : wfLayout layout = true) (hne : layout ≠ [])
    (hc : compile layout u = .ok rc) (s : WStruct) (hs : s.record = rc)
    (hbl : rc.totalSize = .val (4 * (s.buf.length : Int)))
    (path : List String) (f : FieldInfo)
    (hf : fieldLookup rc.fields (joinPath path) = some f)
    (hcc : 1 < f.componentCount) :
    ∃ xs : List (Option ℚ),
      getField s path = .ok (.vec xs) ∧
      xs.length = f.componentCount ∧
      xs = (List.range f.componentCount).map
        (fun j => interpRead f (getWord s (wordIndex f.offset + j))) ∧
      (∀ s' : WStruct, s'.record = s.record →
        (∀ j, j < f.componentCount →
          getWord s' (wordIndex f.offset + j) = getWord s (wordIndex f.offset + j)) →
        getField s' path = .ok (.vec xs)) := by
  obtain ⟨rc', hc', hub, hOK⟩ := compile_ok layout u hwf hne
  rw [hc] at hc'
  injection hc' with hrc
  subst hrc
  obtain ⟨T, htot, hT0, hT4, _, _, _, hmem, _⟩ := hOK
  have hfm : f ∈ rc.fields := fieldLookup_mem hf
  obtain ⟨hty, hoffv, ho0, hoT, hoal, ho4⟩ := hmem f hfm
  have hl : fieldLookup s.record.fields (joinPath path) = some f := by
    rw [hs]; exact hf
  have hcc1 : ¬ (f.componentCount = 1) := by omega
  obtain hfl | hfl | hfl := typeFlags hty
  · refine ⟨(List.range f.componentCount).map
        (fun j => readF (getWord s (wordIndex f.offset + j))), ?_, by simp, ?_, ?_⟩
    · rw [getField_eq_of_lookup s path f hl, if_neg hcc1, if_pos hfl.1]
    · exact range_map_congr _ _ _
        (fun j hj => by rw [interpRead, if_pos hfl.1])
    · intro s' hrec hag
      rw [getField_eq_of_lookup s' path f (by rw [hrec]; exact hl),
        if_neg hcc1, if_pos hfl.1]
      congr 1
      congr 1
      exact range_map_congr _ _ _ (fun j hj => by rw [hag j hj])
  · refine ⟨(List.range f.componentCount).map
        (fun j => some ((readI (getWord s (wordIndex f.offset + j)) : Int) : ℚ)),
        ?_, by simp, ?_, ?_⟩
    · rw [getField_eq_of_lookup s path f hl, if_neg hcc1,
        if_neg (show ¬(typeIsFloat f.type = true) by simp [hfl.1]), if_pos hfl.2.1]
    · exact range_map_congr _ _ _
        (fun j hj => by
          rw [interpRead, if_neg (show ¬(typeIsFloat f.type = true) by simp [hfl.1]),
            if_pos hfl.2.1])
    · intro s' hrec hag
      rw [getField_eq_of_lookup s' path f (by rw [hrec]; exact hl), if_neg hcc1,
        if_neg (show ¬(typeIsFloat f.type = true) by simp [hfl.1]), if_pos hfl.2.1]
      congr 1
      congr 1
      exact range_map_congr _ _ _ (fun j hj => by rw [hag j hj])
  · refine ⟨(List.range f.componentCount).map
        (fun j => some ((readU (getWord s (wordIndex f.offset + j)) : Nat) : ℚ)),
        ?_, by simp, ?_, ?_⟩
    · rw [getField_eq_of_lookup s path f hl, if_neg hcc1,
        if_neg (show ¬(typeIsFloat f.type = true) by simp [hfl.1]),
        if_neg (show ¬(typeIsInt f.type = true) by simp [hfl.2.1]), if_pos hfl.2.2]
    · exact range_map_congr _ _ _
        (fun j hj => by
          rw [interpRead, if_neg (show ¬(typeIsFloat f.type = true) by simp [hfl.1]),
            if_neg (show ¬(typeIsInt f.type = true) by simp [hfl.2.1]), if_pos hfl.2.2])
    · intro s' hrec hag
      rw [getField_eq_of_lookup s' path f (by rw [hrec]; exact hl), if_neg hcc1,
        if_neg (show ¬(typeIsFloat f.type = true) by simp [hfl.1]),
        if_neg (show ¬(typeIsInt f.type = true) by simp [hfl.2.1]), if_pos hfl.2.2]
      congr 1
      congr 1
      exact range_map_congr _ _ _ (fun j hj => by rw [hag j hj])

/-- A one-field `vec2f` record, as compiled. -/
def c8rc : Record :=
  ((compile [("a", FieldSpec.prim "vec2f")] false).toOption).getD ⟨[], .nan, false⟩

/-- The descriptor of the single field of `c8rc`. -/
def c8f : FieldInfo :=
  (fieldLookup c8rc.fields "a").getD
    { name := "", type := "", offset := .nan, size := 0, alignment := 0,
      componentCount := 0, path := [] }

/-- An instance over `c8rc` with a two-word backing buffer. -/
def c8s : WStruct := { record := c8rc, buf := [Word.zero, Word.zero] }

/-- Witness: the vector-copy theorem applied to a concrete one-field
`vec2f` record. -/
theorem C8_witness :
    ∃ xs : List (Option ℚ),
      getField c8s ["a"] = .ok (.vec xs) ∧
      xs.length = c8f.componentCount ∧
      xs = (List.range c8f.componentCount).map
        (fun j => interpRead c8f (getWord c8s (wordIndex c8f.offset + j))) ∧
      (∀ s' : WStruct, s'.record = c8s.record →
        (∀ j, j < c8f.componentCount →
          getWord s' (wordIndex c8f.offset + j) = getWord c8s (wordIndex c8f.offset + j)) →
        getField s' ["a"] = .ok (.vec xs)) :=
  C8_get_vector_copy [("a", FieldSpec.prim "vec2f")] false c8rc (by decide)
    (List.cons_ne_nil _ _) rfl c8s rfl (by decide) ["a"] c8f (by decide) (by decide)

theorem map_const_replicate {α β : Type} (l : List α) (b : β) :
    (l.map fun _ => b) = List.replicate l.length b := by
  induction l with
  | nil => rfl
  | cons a t ih => simp [ih, List.replicate_succ]

/-- C10: a well-formed non-empty layout (no empty nested records)
compiles with a 4-divisible total size and 4-divisible leaf offsets;
construction allocates a buffer the three 4-byte views cover exactly
(`4 * wordCount = totalSize`), each leaf's bulk-write element index
`offset / 4` is whole (`wordIndex * 4 = offset`), and `reset` overwrites
every word with a float32-written zero — all zero bytes whenever the
rounding sends 0 to 0, as float32 rounding does. -/
theorem C10_word_granularity (r32 : ℚ → ℚ) (layout : List (String × FieldSpec))
    (u : Bool) (hwf : wfLayout layout = true) (hne : layout ≠ []) :
    ∃ (rc : Record) (T : Int) (s : WStruct),
      compile layout u = .ok rc ∧
      rc.totalSize = .val T ∧ 0 < T ∧ T % 4 = 0 ∧
      mkStruct layout u = .ok s ∧ s.record = rc ∧
      4 * (s.buf.length : Int) = T ∧
      (∀ f ∈ rc.fields, ∃ o : Int, f.offset = .val o ∧ o % 4 = 0 ∧
        ((wordIndex f.offset : Nat) : Int) * 4 = o) ∧
      (resetStruct r32 s).buf =
        List.replicate s.buf.length (mkFloatWord r32 (some 0)) ∧
      (r32 0 = 0 → (resetStruct r32 s).buf = List.replicate s.buf.length .zero) := by
  obtain ⟨rc, hc, hub, hOK⟩ := compile_ok layout u hwf hne
  obtain ⟨T, htot, hT0, hT4, _, _, _, hmem, _⟩ := hOK
  have hT4' : T % 4 = 0 := Int.emod_eq_zero_of_dvd hT4
  have hmk : mkStruct layout u =
      .ok { record := rc, buf := List.replicate (T / 4).toNat .zero } := by
    simp only [mkStruct, hc, htot]
    rw [if_neg (by omega), if_neg (by simp [hT4'])]
  refine ⟨rc, T, { record := rc, buf := List.replicate (T / 4).toNat .zero },
    hc, htot, hT0, hT4', hmk, rfl, ?_, ?_, ?_, ?_⟩
  · simp only [List.length_replicate]
    rw [Int.toNat_of_nonneg (Int.ediv_nonneg (by omega) (by norm_num))]
    omega
  · intro f hfm
    obtain ⟨hty, hoffv, ho0, hoT, hoal, ho4⟩ := hmem f hfm
    refine ⟨offInt f, hoffv, Int.emod_eq_zero_of_dvd ho4, ?_⟩
    rw [hoffv]
    show (((offInt f / 4).toNat : Nat) : Int) * 4 = offInt f
    rw [Int.toNat_of_nonneg (Int.ediv_nonneg ho0 (by norm_num))]
    exact Int.ediv_mul_cancel ho4
  · show (List.replicate (T / 4).toNat Word.zero).map (fun _ => mkFloatWord r32 (some 0)) =
      List.replicate (List.replicate (T / 4).toNat Word.zero).length (mkFloatWord r32 (some 0))
    rw [map_const_replicate]
  · intro h0
    show (List.replicate (T / 4).toNat Word.zero).map (fun _ => mkFloatWord r32 (some 0)) =
      List.replicate (List.replicate (T / 4).toNat Word.zero).length Word.zero
    rw [map_const_replicate]
    simp [mkFloatWord, h0]

/-- Witness: the word-granularity theorem at a concrete two-field layout
with the identity rounding. -/
theorem C10_witness :
    ∃ (rc : Record) (T : Int) (s : WStruct),
      compile [("a", FieldSpec.prim "f32"), ("b", FieldSpec.prim "vec3f")] false = .ok rc ∧
      rc.totalSize = .val T ∧ 0 < T ∧ T % 4 = 0 ∧
      mkStruct [("a", FieldSpec.prim "f32"), ("b", FieldSpec.prim "vec3f")] false = .ok s ∧
      s.record = rc ∧
      4 * (s.buf.length : Int) = T ∧
      (∀ f ∈ rc.fields, ∃ o : Int, f.offset = .val o ∧ o % 4 = 0 ∧
        ((wordIndex f.offset : Nat) : Int) * 4 = o) ∧
      (resetStruct id s).buf =
        List.replicate s.buf.length (mkFloatWord id (some 0)) ∧
      (id (0:ℚ) = 0 → (resetStruct id s).buf = List.replicate s.buf.length .zero) :=
  C10_word_granularity id [("a", FieldSpec.prim "f32"), ("b", FieldSpec.prim "vec3f")]
    false (by decide) (List.cons_ne_nil _ _)

/-- Evaluation of `set`'s write on a plain-object-array value. -/
theorem setFieldWrite_objArr (r32 : ℚ → ℚ) (key : String) (f : FieldInfo)
    (xs : List JSVal) (buf : List Word) :
    setFieldWrite r32 key f (.objArr xs) buf =
      (if f.componentCount = 1 then .error (.expectedScalar key)
       else if (arrayFromElems (JSVal.objArr xs)).length ≠ f.componentCount then
        .error (.componentMismatch f.componentCount (arrayFromElems (JSVal.objArr xs)).length)
       else if typeIsFloat f.type then
        .ok (writeWords buf (wordIndex f.offset)
          ((arrayFromElems (JSVal.objArr xs)).map (mkFloatWord r32)))
       else if typeIsInt f.type then
        .ok (writeWords buf (wordIndex f.offset)
          ((arrayFromElems (JSVal.objArr xs)).map mkIntWord))
       else if typeIsUint f.type then
        .ok (writeWords buf (wordIndex f.offset)
          ((arrayFromElems (JSVal.objArr xs)).map mkUintWord))
       else .ok buf) := rfl

/-- Evaluation of `set`'s write on a plain-object value. -/
theorem setFieldWrite_objVal (r32 : ℚ → ℚ) (key : String) (f : FieldInfo)
    (es : List (String × JSVal)) (buf : List Word) :
    setFieldWrite r32 key f (.obj es) buf =
      (if f.componentCount = 1 then .error (.expectedScalar key)
       else if (arrayFromElems (JSVal.obj es)).length ≠ f.componentCount then
        .error (.componentMismatch f.componentCount (arrayFromElems (JSVal.obj es)).length)
       else if typeIsFloat f.type then
        .ok (writeWords buf (wordIndex f.offset)
          ((arrayFromElems (JSVal.obj es)).map (mkFloatWord r32)))
       else if typeIsInt f.type then
        .ok (writeWords buf (wordIndex f.offset)
          ((arrayFromElems (JSVal.obj es)).map mkIntWord))
       else if typeIsUint f.type then
        .ok (writeWords buf (wordIndex f.offset)
          ((arrayFromElems (JSVal.obj es)).map mkUintWord))
       else .ok buf) := rfl

/-- The error `set` raises on a key/value pair, if any: the same cascade
of checks `set` performs, without the write. -/
def setFieldErr (fields : List FieldInfo) (key : String) (value : JSVal) :
    Option AccessError :=
  match fieldLookup fields key with
  | none => some (.unknownField key)
  | some field =>
    if field.componentCount = 1 then
      match value with
      | .num _ => none
      | _ => some (.expectedScalar key)
    else
      match value with
      | .num _ => some (.expectedVector key)
      | v =>
        if (arrayFromElems v).length ≠ field.componentCount then
          some (.componentMismatch field.componentCount (arrayFromElems v).length)
        else none

theorem setFieldWrite_flags_ok (f : FieldInfo) (b1 b2 b3 b4 : List Word) :
    ∃ b, (if typeIsFloat f.type then (Except.ok b1 : Except AccessError (List Word))
          else if typeIsInt f.type then .ok b2
          else if typeIsUint f.type then .ok b3
          else .ok b4) = .ok b := by
  by_cases f1 : typeIsFloat f.type = true
  · rw [if_pos f1]; exact ⟨b1, rfl⟩
  · rw [if_neg f1]
    by_cases f2 : typeIsInt f.type = true
    · rw [if_pos f2]; exact ⟨b2, rfl⟩
    · rw [if_neg f2]
      by_cases f3 : typeIsUint f.type = true
      · rw [if_pos f3]; exact ⟨b3, rfl⟩
      · rw [if_neg f3]; exact ⟨b4, rfl⟩

/-- `set` errors exactly when the check cascade reports an error — and
with that error — and otherwise succeeds, leaving the compiled record
untouched. -/
theorem setField_cases (r32 : ℚ → ℚ) (s : WStruct) (p : List String) (v : JSVal) :
    (∃ e, setField r32 s p v = .error e ∧
      setFieldErr s.record.fields (joinPath p) v = some e) ∨
    (∃ s', setField r32 s p v = .ok s' ∧ s'.record = s.record ∧
      setFieldErr s.record.fields (joinPath p) v = none) := by
  rcases hl : fieldLookup s.record.fields (joinPath p) with _ | field
  · left
    refine ⟨.unknownField (joinPath p), ?_, ?_⟩
    · simp [setField, hl]
    · simp [setFieldErr, hl]
  · by_cases hcc : field.componentCount = 1
    · cases v with
      | num x =>
        right
        obtain ⟨b, hb⟩ : ∃ b, setFieldWrite r32 (joinPath p) field (.num x) s.buf = .ok b := by
          rw [setFieldWrite_num, if_pos hcc]
          exact setFieldWrite_flags_ok field _ _ _ _
        exact ⟨{ s with buf := b }, by simp [setField, hl, hb, Except.map], rfl,
          by simp [setFieldErr, hl, hcc]⟩
      | numArr xs =>
        left
        refine ⟨.expectedScalar (joinPath p), ?_, ?_⟩
        · simp only [setField, hl]
          rw [setFieldWrite_numArr, if_pos hcc]
          rfl
        · simp [setFieldErr, hl, hcc]
      | typedArr xs =>
        left
        refine ⟨.expectedScalar (joinPath p), ?_, ?_⟩
        · simp only [setField, hl]
          rw [setFieldWrite_typedArr, if_pos hcc]
          rfl
        · simp [setFieldErr, hl, hcc]
      | objArr xs =>
        left
        refine ⟨.expectedScalar (joinPath p), ?_, ?_⟩
        · simp only [setField, hl]
          rw [setFieldWrite_objArr, if_pos hcc]
          rfl
        · simp [setFieldErr, hl, hcc]
      | obj es =>
        left
        refine ⟨.expectedScalar (joinPath p), ?_, ?_⟩
        · simp only [setField, hl]
          rw [setFieldWrite_objVal, if_pos hcc]
          rfl
        · simp [setFieldErr, hl, hcc]
    · cases v with
      | num x =>
        left
        refine ⟨.expectedVector (joinPath p), ?_, ?_⟩
        · simp only [setField, hl]
          rw [setFieldWrite_num, if_neg hcc]
          rfl
        · simp [setFieldErr, hl, hcc]
      | numArr xs =>
        by_cases hlen : (xs.map some).length ≠ field.componentCount
        · left
          refine ⟨.componentMismatch field.componentCount
            (arrayFromElems (JSVal.numArr xs)).length, ?_, ?_⟩
          · simp only [setField, hl]
            rw [setFieldWrite_numArr, if_neg hcc, if_pos hlen]
            rfl
          · simp only [setFieldErr, hl, arrayFromElems]
            rw [if_neg hcc, if_pos hlen]
        · right
          obtain ⟨b, hb⟩ :
              ∃ b, setFieldWrite r32 (joinPath p) field (.numArr xs) s.buf = .ok b := by
            rw [setFieldWrite_numArr, if_neg hcc, if_neg hlen]
            exact setFieldWrite_flags_ok field _ _ _ _
          refine ⟨{ s with buf := b }, by simp [setField, hl, hb, Except.map], rfl, ?_⟩
          simp only [setFieldErr, hl, arrayFromElems]
          rw [if_neg hcc, if_neg hlen]
      | typedArr xs =>
        by_cases hlen : (xs.map some).length ≠ field.componentCount
        · left
          refine ⟨.componentMismatch field.componentCount
            (arrayFromElems (JSVal.typedArr xs)).length, ?_, ?_⟩
          · simp only [setField, hl]
            rw [setFieldWrite_typedArr, if_neg hcc, if_pos hlen]
            rfl
          · simp only [setFieldErr, hl, arrayFromElems]
            rw [if_neg hcc, if_pos hlen]
        · right
          obtain ⟨b, hb⟩ :
              ∃ b, setFieldWrite r32 (joinPath p) field (.typedArr xs) s.buf = .ok b := by
            rw [setFieldWrite_typedArr, if_neg hcc, if_neg hlen]
            exact setFieldWrite_flags_ok field _ _ _ _
          refine ⟨{ s with buf := b }, by simp [setField, hl, hb, Except.map], rfl, ?_⟩
          simp only [setFieldErr, hl, arrayFromElems]
          rw [if_neg hcc, if_neg hlen]
      | objArr xs =>
        by_cases hlen : (arrayFromElems (JSVal.objArr xs)).length ≠ field.componentCount
        · left
          refine ⟨.componentMismatch field.componentCount
            (arrayFromElems (JSVal.objArr xs)).length, ?_, ?_⟩
          · simp only [setField, hl]
            rw [setFieldWrite_objArr, if_neg hcc, if_pos hlen]
            rfl
          · simp only [setFieldErr, hl]
            rw [if_neg hcc, if_pos hlen]
        · right
          obtain ⟨b, hb⟩ :
              ∃ b, setFieldWrite r32 (joinPath p) field (.objArr xs) s.buf = .ok b := by
            rw [setFieldWrite_objArr, if_neg hcc, if_neg hlen]
            exact setFieldWrite_flags_ok field _ _ _ _
          refine ⟨{ s with buf := b }, by simp [setField, hl, hb, Except.map], rfl, ?_⟩
          simp only [setFieldErr, hl]
          rw [if_neg hcc, if_neg hlen]
      | obj es =>
        by_cases hlen : (arrayFromElems (JSVal.obj es)).length ≠ field.componentCount
        · left
          refine ⟨.componentMismatch field.componentCount
            (arrayFromElems (JSVal.obj es)).length, ?_, ?_⟩
          · simp only [setField, hl]
            rw [setFieldWrite_objVal, if_neg hcc, if_pos hlen]
            rfl
          · simp only [setFieldErr, hl]
            rw [if_neg hcc, if_pos hlen]
        · right
          obtain ⟨b, hb⟩ :
              ∃ b, setFieldWrite r32 (joinPath p) field (.obj es) s.buf = .ok b := by
            rw [setFieldWrite_objVal, if_neg hcc, if_neg hlen]
            exact setFieldWrite_flags_ok field _ _ _ _
          refine ⟨{ s with buf := b }, by simp [setField, hl, hb, Except.map], rfl, ?_⟩
          simp only [setFieldErr, hl]
          rw [if_neg hcc, if_neg hlen]

/-- A setAll leaf is invalid when `set` would reject it. -/
def badLeaf (fields : List FieldInfo) (l : List String × JSVal) : Bool :=
  (setFieldErr fields (joinPath l.1) l.2).isSome

/-- The C7 correctness condition for a run over the leaf list `L`: if
some leaf of `L` is invalid, the run raises the error of the first such
leaf in order; otherwise it succeeds with the record unchanged. -/
def AllSpec (rc : Record) (L : List (List String × JSVal))
    (res : Except AccessError WStruct) : Prop :=
  match L.find? (badLeaf rc.fields) with
  | some l => ∃ e, res = .error e ∧ setFieldErr rc.fields (joinPath l.1) l.2 = some e
  | none => ∃ s', res = .ok s' ∧ s'.record = rc

theorem AllSpec_ok (rc : Record) (s : WStruct) (hs : s.record = rc) :
    AllSpec rc [] (.ok s) := by
  unfold AllSpec
  exact ⟨s, rfl, hs⟩

theorem AllSpec_leaf (r32 : ℚ → ℚ) (rc : Record) (s : WStruct) (hs : s.record = rc)
    (p : List String) (v : JSVal) :
    AllSpec rc [(p, v)] (setField r32 s p v) := by
  rcases setField_cases r32 s p v with ⟨e, he, herr⟩ | ⟨s', hok, hrec, herr⟩
  · rw [hs] at herr
    have hb : badLeaf rc.fields (p, v) = true := by simp [badLeaf, herr]
    have hfind : ([(p, v)] : List (List String × JSVal)).find? (badLeaf rc.fields) =
        some (p, v) := by
      simp [List.find?, hb]
    unfold AllSpec
    rw [hfind]
    exact ⟨e, he, herr⟩
  · rw [hs] at herr
    have hb : badLeaf rc.fields (p, v) = false := by simp [badLeaf, herr]
    have hfind : ([(p, v)] : List (List String × JSVal)).find? (badLeaf rc.fields) =
        none := by
      simp [List.find?, hb]
    unfold AllSpec
    rw [hfind]
    exact ⟨s', hok, hrec.trans hs⟩

theorem find?_append_eq {α : Type} (p : α → Bool) (l1 l2 : List α) :
    (l1 ++ l2).find? p = match l1.find? p with
      | some a => some a
      | none => l2.find? p := by
  induction l1 with
  | nil => rfl
  | cons a t ih =>
    simp only [List.cons_append, List.find?]
    cases p a <;> simp [ih]

theorem AllSpec_seq (rc : Record) (L1 L2 : List (List String × JSVal))
    (res1 : Except AccessError WStruct) (k : WStruct → Except AccessError WStruct)
    (res : Except AccessError WStruct)
    (h1 : AllSpec rc L1 res1)
    (h2 : ∀ s', res1 = .ok s' → s'.record = rc → AllSpec rc L2 (k s'))
    (hE : ∀ e, res1 = .error e → res = .error e)
    (hO : ∀ s', res1 = .ok s' → res = k s') :
    AllSpec rc (L1 ++ L2) res := by
  unfold AllSpec at h1 ⊢
  rcases hf1 : L1.find? (badLeaf rc.fields) with _ | l
  · have happ : (L1 ++ L2).find? (badLeaf rc.fields) = L2.find? (badLeaf rc.fields) := by
      rw [find?_append_eq, hf1]
    rw [happ]
    rw [hf1] at h1
    obtain ⟨s', hok1, hrec⟩ := h1
    have h2' := h2 s' hok1 hrec
    unfold AllSpec at h2'
    rw [hO s' hok1]
    exact h2'
  · have happ : (L1 ++ L2).find? (badLeaf rc.fields) = some l := by
      rw [find?_append_eq, hf1]
    rw [happ]
    rw [hf1] at h1
    obtain ⟨e, herr1, hse⟩ := h1
    exact ⟨e, hE e herr1, hse⟩

theorem list_sizeOf_pos {α : Type} [SizeOf α] (l : List α) : 0 < sizeOf l := by
  cases l with
  | nil => simp
  | cons a t =>
    have h : sizeOf (a :: t) = 1 + sizeOf a + sizeOf t := by simp
    omega

mutual

theorem setAllVal_ok (r32 : ℚ → ℚ) (rc : Record) (s : WStruct) (hs : s.record = rc)
    (value : JSVal) (path : List String) :
    AllSpec rc (leavesVal rc.fields value path) (setAllVal r32 s value path) := by
  cases value with
  | obj es =>
    simp only [setAllVal, leavesVal]
    exact setAllEntries_ok r32 rc s hs es path
  | objArr xs =>
    simp only [setAllVal, leavesVal]
    exact setAllIdx_ok r32 rc s hs xs 0 path
  | numArr xs =>
    simp only [setAllVal, leavesVal]
    exact setAllNumIdx_ok r32 rc s hs xs 0 path
  | typedArr xs =>
    simp only [setAllVal, leavesVal]
    exact setAllNumIdx_ok r32 rc s hs xs 0 path
  | num x =>
    simp only [setAllVal, leavesVal]
    exact AllSpec_ok rc s hs
termination_by (sizeOf value, 0)

theorem setAllEntries_ok (r32 : ℚ → ℚ) (rc : Record) (s : WStruct)
    (hs : s.record = rc) (es : List (String × JSVal)) (path : List String) :
    AllSpec rc (leavesEntries rc.fields es path) (setAllEntries r32 s es path) := by
  cases es with
  | nil =>
    simp only [setAllEntries, leavesEntries]
    exact AllSpec_ok rc s hs
  | cons e rest =>
    obtain ⟨k, v⟩ := e
    simp only [setAllEntries, leavesEntries]
    exact AllSpec_seq rc _ _ _ _ _ (setAllStep_ok r32 rc s hs k v path)
      (fun s' hok hrec => setAllEntries_ok r32 rc s' hrec rest path)
      (fun e he => by rw [he]) (fun s' h => by rw [h])
termination_by (sizeOf es, 0)

theorem setAllIdx_ok (r32 : ℚ → ℚ) (rc : Record) (s : WStruct)
    (hs : s.record = rc) (xs : List JSVal) (i : Nat) (path : List String) :
    AllSpec rc (leavesIdx rc.fields xs i path) (setAllIdx r32 s xs i path) := by
  cases xs with
  | nil =>
    simp only [setAllIdx, leavesIdx]
    exact AllSpec_ok rc s hs
  | cons v rest =>
    simp only [setAllIdx, leavesIdx]
    exact AllSpec_seq rc _ _ _ _ _ (setAllStep_ok r32 rc s hs (toString i) v path)
      (fun s' hok hrec => setAllIdx_ok r32 rc s' hrec rest (i + 1) path)
      (fun e he => by rw [he]) (fun s' h => by rw [h])
termination_by (sizeOf xs, 0)

theorem setAllNumIdx_ok (r32 : ℚ → ℚ) (rc : Record) (s : WStruct)
    (hs : s.record = rc) (xs : List ℚ) (i : Nat) (path : List String) :
    AllSpec rc (leavesNumIdx rc.fields xs i path) (setAllNumIdx r32 s xs i path) := by
  cases xs with
  | nil =>
    simp only [setAllNumIdx, leavesNumIdx]
    exact AllSpec_ok rc s hs
  | cons x rest =>
    simp only [setAllNumIdx, leavesNumIdx]
    exact AllSpec_seq rc _ _ _ _ _
      (setAllStep_ok r32 rc s hs (toString i) (.num x) path)
      (fun s' hok hrec => setAllNumIdx_ok r32 rc s' hrec rest (i + 1) path)
      (fun e he => by rw [he]) (fun s' h => by rw [h])
termination_by (sizeOf xs, 0)
decreasing_by
  all_goals simp_wf
  all_goals apply Prod.Lex.left
  all_goals first
    | omega
    | exact Nat.lt_add_of_pos_right (list_sizeOf_pos _)

theorem setAllStep_ok (r32 : ℚ → ℚ) (rc : Record) (s : WStruct)
    (hs : s.record = rc) (key : String) (v : JSVal) (path : List String) :
    AllSpec rc (leavesStep rc.fields key v path) (setAllStep r32 s key v path) := by
  cases v with
  | num x =>
    simp only [setAllStep, leavesStep]
    exact AllSpec_leaf r32 rc s hs (path ++ [key]) (.num x)
  | typedArr xs =>
    simp only [setAllStep, leavesStep]
    exact AllSpec_leaf r32 rc s hs (path ++ [key]) (.typedArr xs)
  | numArr xs =>
    cases xs with
    | nil =>
      simp only [setAllStep, leavesStep]
      exact setAllObj_ok r32 rc s hs key (.numArr []) path
    | cons x t =>
      simp only [setAllStep, leavesStep]
      exact AllSpec_leaf r32 rc s hs (path ++ [key]) (.numArr (x :: t))
  | obj es =>
    simp only [setAllStep, leavesStep]
    exact setAllObj_ok r32 rc s hs key (.obj es) path
  | objArr xs =>
    simp only [setAllStep, leavesStep]
    exact setAllObj_ok r32 rc s hs key (.objArr xs) path
termination_by (sizeOf v, 2)

theorem setAllObj_ok (r32 : ℚ → ℚ) (rc : Record) (s : WStruct)
    (hs : s.record = rc) (key : String) (v : JSVal) (path : List String) :
    AllSpec rc (leavesObj rc.fields key v path) (setAllObj r32 s key v path) := by
  simp only [setAllObj, leavesObj]
  rw [hs]
  by_cases hd : isDigitKey key = true
  · rw [if_pos hd, if_pos hd]
    exact setAllVal_ok r32 rc s hs v (path ++ [key])
  · rw [if_neg hd, if_neg hd]
    by_cases hl2 : (fieldLookup rc.fields (joinPath (path ++ [key]))).isSome = true
    · rw [if_pos hl2, if_pos hl2]
      exact AllSpec_leaf r32 rc s hs (path ++ [key]) v
    · rw [if_neg hl2, if_neg hl2]
      exact setAllVal_ok r32 rc s hs v (path ++ [key])
termination_by (sizeOf v, 1)

end

/-- C7: `setAll` recurses through intermediate nodes — plain objects,
plain arrays, and digit-keyed array-index segments whose accumulated
path is not a known field — without raising; its errors come only from
the leaves the traversal delivers to `set`.  When some leaf is invalid
(unknown path, wrong value shape, or wrong component count) the result
is exactly the error of the first invalid leaf in traversal order —
never a silent skip — and when every leaf is valid `setAll` succeeds. -/
theorem C7_setAll_fail_fast (r32 : ℚ → ℚ) (s : WStruct) (values : JSVal) :
    AllSpec s.record (leavesVal s.record.fields values []) (setAll r32 s values) := by
  simp only [setAll]
  exact setAllVal_ok r32 s.record s rfl values []

end WGS
